import Mathlib

/-!
# TimeLayer — verification of the layered memory engine against its spec

This file is a shallow embedding, in Lean 4, of the parts of the TimeLayer
Go code base that the specification's claims talk about, together with
theorems settling each claim.

Modelling conventions, used throughout:

* A Go `string` is modelled as `GoStr := List Char`, i.e. as its sequence of
  Unicode scalar values.  Go's byte-oriented primitives (`strings.Index`,
  `strings.HasPrefix`, slicing at an index returned by `Index`, …) are
  modelled by the corresponding scalar-value operations.  For valid UTF-8
  (which Go strings holding text are) the two views agree: UTF-8 is
  self-synchronizing, so a substring occurs at a byte boundary iff it occurs
  at a scalar boundary, byte slicing at such a boundary equals scalar
  slicing, and byte-wise lexicographic order equals scalar-wise order.
  Numeric *byte counts* (`len(s)`) coincide with scalar counts on ASCII
  data, which is what the concrete inputs in this file use whenever a
  length threshold is involved;  `len([]rune(s))` is a scalar count in Go
  already and is modelled by `List.length` exactly.
* Go `float64` arithmetic is modelled by exact rational arithmetic (`ℚ`).
  Where the Go code computes with a square root (`math.Sqrt`), the model
  uses the algebraically equivalent square-free comparison, documented at
  the definition.
* The SQLite tables are modelled as Lean lists of rows, in table order;
  SQL row scans without `ORDER BY` are modelled as scans in that order.
  `AUTOINCREMENT` ids are modelled with an explicit counter.
* Remote HTTP calls (chat/embedding/rerank services) and file reads are
  external inputs; they enter the model as explicit parameters.
-/

unseal Rat.add Rat.mul Rat.sub Rat.inv

namespace TimeLayer

/-! ## Go string primitives -/

/-- A Go string, as its sequence of Unicode scalar values. -/
abbrev GoStr := List Char

/-- Shorthand turning a Lean string literal into a `GoStr`. -/
def gs (s : String) : GoStr := s.data

/-- `unicode.IsSpace` of Go: the Unicode White_Space property
(Latin-1 spaces plus the `Zs`/`Zl`/`Zp` separators). -/
def goIsSpace (c : Char) : Bool :=
  c == ' ' || c == '\t' || c == '\n' || c == '\x0b' || c == '\x0c' || c == '\r' ||
  c == '\u0085' || c == ' ' || c == Char.ofNat 0x1680 ||
  (0x2000 ≤ c.toNat && c.toNat ≤ 0x200A) ||
  c == Char.ofNat 0x2028 || c == Char.ofNat 0x2029 || c == Char.ofNat 0x202F ||
  c == Char.ofNat 0x205F || c == Char.ofNat 0x3000

/-- Drop the longest run of characters satisfying `p` from the right end. -/
def trimRightP (p : Char → Bool) (s : GoStr) : GoStr :=
  (s.reverse.dropWhile p).reverse

/-- Go `strings.TrimSpace`. -/
def goTrim (s : GoStr) : GoStr :=
  trimRightP goIsSpace (s.dropWhile goIsSpace)

/-- Go `strings.TrimRight(s, cutset)`. -/
def goTrimRightCut (cut : GoStr) (s : GoStr) : GoStr :=
  trimRightP (fun c => cut.contains c) s

/-- Go `strings.Trim(s, cutset)`. -/
def goTrimCut (cut : GoStr) (s : GoStr) : GoStr :=
  trimRightP (fun c => cut.contains c) (s.dropWhile (fun c => cut.contains c))

/-- Go `strings.HasPrefix(s, pre)`. -/
def goStartsWith (s pre : GoStr) : Bool := pre.isPrefixOf s

/-- Go `strings.HasSuffix(s, suf)`. -/
def goEndsWith (s suf : GoStr) : Bool := suf.isSuffixOf s

/-- Go `strings.TrimPrefix(s, pre)`. -/
def goDropPre (pre s : GoStr) : GoStr :=
  if pre.isPrefixOf s then s.drop pre.length else s

/-- Go `strings.TrimSuffix(s, suf)`. -/
def goDropSuf (suf s : GoStr) : GoStr :=
  if suf.isSuffixOf s then s.take (s.length - suf.length) else s

/-- Index (in scalar values) of the first occurrence of `sub` in `s`;
`none` when absent.  Models Go `strings.Index` (which returns `-1` for
absent, and a byte index otherwise; at an occurrence, byte index `0`
corresponds to scalar index `0`, and slicing agrees). -/
def subAt (s sub : GoStr) : Option Nat :=
  if sub.isPrefixOf s then some 0
  else
    match s with
    | [] => none
    | _ :: t => (subAt t sub).map (· + 1)

/-- Go `strings.Contains`. -/
def goContains (s sub : GoStr) : Bool := (subAt s sub).isSome

/-- The index of `sub` in `s` when that index is positive — the Go idiom
`if i := strings.Index(s, sub); i > 0 { … }`. -/
def indexPos (s sub : GoStr) : Option Nat :=
  match subAt s sub with
  | some i => if 0 < i then some i else none
  | none => none

/-- Go `strings.Split(s, sep)` for a one-character separator. -/
def splitOnChar (c : Char) : GoStr → List GoStr
  | [] => [[]]
  | x :: t =>
    if x == c then [] :: splitOnChar c t
    else
      match splitOnChar c t with
      | [] => [[x]]
      | h :: r => (x :: h) :: r

/-- Helper of `goFields`: `cur` is the (reversed) word being accumulated. -/
def fieldsAux (cur : GoStr) : GoStr → List GoStr
  | [] => if cur.isEmpty then [] else [cur.reverse]
  | c :: t =>
    if goIsSpace c then
      if cur.isEmpty then fieldsAux [] t else cur.reverse :: fieldsAux [] t
    else fieldsAux (c :: cur) t

/-- Go `strings.Fields`. -/
def goFields (s : GoStr) : List GoStr := fieldsAux [] s

/-- Go `strings.Join(xs, sep)`. -/
def goJoin (sep : GoStr) (xs : List GoStr) : GoStr := List.intercalate sep xs

/-- Go `strings.ToLower`, scalar-wise (exact on ASCII and on characters
without a case distinction, which covers every string this file uses). -/
def goToLower (s : GoStr) : GoStr := s.map Char.toLower

/-- Byte-wise lexicographic `<` on Go strings.  On valid UTF-8, byte-wise
order equals scalar-value lexicographic order, which is what we compute. -/
def goLt : GoStr → GoStr → Bool
  | [], [] => false
  | [], _ :: _ => true
  | _ :: _, [] => false
  | a :: s, b :: t => if a == b then goLt s t else decide (a < b)

/-! ### Basic lemmas about the string primitives -/

theorem length_dropWhile_le (p : Char → Bool) (s : GoStr) :
    (s.dropWhile p).length ≤ s.length := by
  induction s with
  | nil => simp
  | cons c t ih =>
    by_cases h : p c
    · simp only [List.dropWhile, h]
      exact le_trans ih (by simp)
    · simp [List.dropWhile, h]

theorem dropWhile_idem (p : Char → Bool) (s : GoStr) :
    (s.dropWhile p).dropWhile p = s.dropWhile p := by
  induction s with
  | nil => simp
  | cons c t ih =>
    by_cases h : p c
    · simp [List.dropWhile, h, ih]
    · simp [List.dropWhile, h]

theorem dropWhile_append_singleton (p : Char → Bool) (c : Char) (hc : ¬ p c)
    (xs : GoStr) : (xs ++ [c]).dropWhile p = xs.dropWhile p ++ [c] := by
  induction xs with
  | nil => simp [List.dropWhile, hc]
  | cons a t ih =>
    by_cases h : p a
    · simp [List.dropWhile, h, ih]
    · simp [List.dropWhile, h]

theorem trimRightP_idem (p : Char → Bool) (s : GoStr) :
    trimRightP p (trimRightP p s) = trimRightP p s := by
  simp [trimRightP, dropWhile_idem]

theorem dropWhile_trimRightP (p : Char → Bool) (s : GoStr)
    (h : s.dropWhile p = s) : (trimRightP p s).dropWhile p = trimRightP p s := by
  cases s with
  | nil => simp [trimRightP]
  | cons c t =>
    have hc : ¬ p c := by
      intro hpc
      have h1 : (c :: t).dropWhile p = t.dropWhile p := by
        simp [List.dropWhile, hpc]
      have h2 : t.dropWhile p = c :: t := by rw [← h1, h]
      have := length_dropWhile_le p t
      rw [h2] at this
      simp at this
    have : trimRightP p (c :: t) = c :: (t.reverse.dropWhile p).reverse := by
      simp only [trimRightP, List.reverse_cons]
      rw [dropWhile_append_singleton p c hc]
      simp
    rw [this]
    simp [List.dropWhile, hc]

theorem goTrim_idem (s : GoStr) : goTrim (goTrim s) = goTrim s := by
  unfold goTrim
  rw [dropWhile_trimRightP goIsSpace _ (dropWhile_idem goIsSpace s),
    trimRightP_idem]

/-! ## Fact keys (port of `normalizeFactKey`, `extractFactSubject`,
`deriveFactKeyFromSubject`) -/

/-- `normalizeFactKey`: trim, collapse whitespace runs to single spaces,
lowercase. -/
def normalizeFactKey (s : GoStr) : GoStr :=
  goToLower (goJoin (gs " ") (goFields (goTrim s)))

/-- `extractFactSubject`: the prefix before the first `就是`, or failing
that before the first `是`, when that connective is not at the start. -/
def extractFactSubject (fact0 : GoStr) : GoStr :=
  let fact := goTrim fact0
  match indexPos fact (gs "就是") with
  | some i => goTrim (fact.take i)
  | none =>
    match indexPos fact (gs "是") with
    | some i => goTrim (fact.take i)
    | none => []

/-- `deriveFactKeyFromSubject`: `"subject:" + normalized(subject)` when a
subject phrase exists, else the normalized full text. -/
def deriveFactKeyFromSubject (content : GoStr) : GoStr :=
  let subject := extractFactSubject content
  if subject.isEmpty then normalizeFactKey content
  else gs "subject:" ++ normalizeFactKey subject

/-! ## Fact triples and slot keys (port of `facts_triple.go`, `part_012`) -/

/-- `FactTriple`: the conservative heuristic parse of a fact. -/
structure FactTriple where
  subject : GoStr := []
  relation : GoStr := []
  object : GoStr := []
  subjectKey : GoStr := []
  relationKey : GoStr := []
  objectNorm : GoStr := []
  singleValued : Bool := false
deriving DecidableEq, Repr

/-- `FactTriple.SlotKey`: non-empty only for single-valued relations. -/
def FactTriple.slotKey (t : FactTriple) : GoStr :=
  if !t.singleValued then []
  else if t.subjectKey.isEmpty || t.relationKey.isEmpty then []
  else gs "slot:" ++ t.subjectKey ++ gs "|" ++ t.relationKey

/-- `canonicalRelationKey`: canonical relation name and whether the
relation is single-valued. -/
def canonicalRelationKey (relation : GoStr) : GoStr × Bool :=
  let r := goToLower (goTrim relation)
  let r := r.map (fun c => if c == '：' then ':' else c)
  if goContains r (gs "名字") || goContains r (gs "姓名") || goContains r (gs "真名") ||
      goContains r (gs "昵称") || goContains r (gs "英文名") then (gs "name", true)
  else if goContains r (gs "id") || goContains r (gs "账号") || goContains r (gs "用户名") then
    (gs "id", true)
  else if goContains r (gs "名叫") || goContains r (gs "叫做") ||
      (goContains r (gs "叫") && !goContains r (gs "喜欢")) then (gs "name", true)
  else if goContains r (gs "邮箱") then (gs "email", true)
  else if goContains r (gs "手机号") || goContains r (gs "手机") || goContains r (gs "电话") then
    (gs "phone", true)
  else if goContains r (gs "生日") || goContains r (gs "出生") then (gs "birthday", true)
  else if goContains r (gs "年龄") then (gs "age", true)
  else if goContains r (gs "住址") || goContains r (gs "地址") || goContains r (gs "住在") ||
      goContains r (gs "所在地") then (gs "location", true)
  else if goContains r (gs "公司") || goContains r (gs "工作") || goContains r (gs "任职") ||
      goContains r (gs "职位") || goContains r (gs "职务") then (gs "job", true)
  else if goContains r (gs "name") then (gs "name", true)
  else if goContains r (gs "email") || goContains r (gs "e-mail") || goContains r (gs "mail") then
    (gs "email", true)
  else if goContains r (gs "phone") || goContains r (gs "tel") then (gs "phone", true)
  else if goContains r (gs "birthday") || goContains r (gs "born") then (gs "birthday", true)
  else if goContains r (gs "age") then (gs "age", true)
  else if goContains r (gs "live") || goContains r (gs "location") || goContains r (gs "address") then
    (gs "location", true)
  else if goContains r (gs "work") || goContains r (gs "company") || goContains r (gs "job") ||
      goContains r (gs "title") then (gs "job", true)
  else if r == gs "是" || r == gs "就是" || r == gs "为" || r == gs "is" || r == gs "are" then
    (gs "identity", true)
  else ([], false)

/-- The quote/space cutset of `finalizeTriple` (`"\"'“”‘’ "`). -/
def quoteCut : GoStr := ['"', Char.ofNat 39, '“', '”', '‘', '’', ' ']

/-- `finalizeTriple`. -/
def finalizeTriple (subject0 relation0 object0 : GoStr) : FactTriple :=
  let subject := goTrim subject0
  let relation := goTrim relation0
  let object := goTrim object0
  if subject.isEmpty || relation.isEmpty || object.isEmpty then {}
  else
    let subject := if goStartsWith subject (gs "我的") then gs "我" else subject
    let subject := if goStartsWith subject (gs "你的") then gs "你" else subject
    let subject := goTrimCut quoteCut subject
    let object := goTrimCut quoteCut object
    let cr := canonicalRelationKey relation
    if cr.1.isEmpty then {}
    else
      { subject := subject, relation := relation, object := object,
        subjectKey := gs "sub:" ++ normalizeFactKey subject,
        relationKey := gs "rel:" ++ cr.1,
        objectNorm := normalizeFactKey object,
        singleValued := cr.2 }

/-- The single-valued attribute list shared by the two Chinese parsers. -/
def cnAttrs : List GoStr :=
  [gs "名字", gs "姓名", gs "真名", gs "昵称", gs "英文名", gs "ID", gs "邮箱", gs "手机号",
   gs "电话", gs "生日", gs "出生日期", gs "年龄", gs "住址", gs "地址", gs "所在地",
   gs "公司", gs "职位", gs "职务"]

/-- Attribute loop of `parseChinesePossessiveIs`: pattern `<subj>的<attr>是/为<obj>`. -/
def parsePossessiveWith (s : GoStr) : List GoStr → Option (GoStr × GoStr × GoStr)
  | [] => none
  | a :: rest =>
    let needle := gs "的" ++ a
    match indexPos s needle with
    | none => parsePossessiveWith s rest
    | some idx =>
      let restS := s.drop (idx + needle.length)
      let sepRes : Option (GoStr × Nat) :=
        match subAt restS (gs "是") with
        | some i => some (gs "是", i)
        | none =>
          match subAt restS (gs "为") with
          | some i => some (gs "为", i)
          | none => none
      match sepRes with
      | none => parsePossessiveWith s rest
      | some (sep, sepIdx) =>
        let subject := goTrim (s.take idx)
        let relation := goTrim (a ++ sep)
        let object := goTrim (restS.drop (sepIdx + sep.length))
        if !subject.isEmpty && !object.isEmpty then some (subject, relation, object)
        else parsePossessiveWith s rest

/-- `parseChinesePossessiveIs`. -/
def parseChinesePossessiveIs (s : GoStr) : Option (GoStr × GoStr × GoStr) :=
  if !goContains s (gs "的") then none else parsePossessiveWith s cnAttrs

/-- Attribute loop of `parseChineseAttributeIs`: pattern `<subj><attr>是<obj>`. -/
def parseAttrIsWith (s : GoStr) : List GoStr → Option (GoStr × GoStr × GoStr)
  | [] => none
  | a :: rest =>
    let needle := a ++ gs "是"
    match indexPos s needle with
    | none => parseAttrIsWith s rest
    | some idx =>
      let subject := goDropSuf (gs "的") (goTrim (s.take idx))
      let object := goTrim (s.drop (idx + needle.length))
      let relation := a ++ gs "是"
      if !subject.isEmpty && !object.isEmpty then some (subject, relation, object)
      else parseAttrIsWith s rest

/-- `parseChineseAttributeIs`. -/
def parseChineseAttributeIs (s : GoStr) : Option (GoStr × GoStr × GoStr) :=
  parseAttrIsWith s cnAttrs

/-- Separator list of `parseChineseDirect`, ordered by specificity. -/
def cnSeps : List GoStr := [gs "名叫", gs "叫做", gs "就是", gs "是", gs "为", gs "叫"]

/-- Separator loop of `parseChineseDirect`.  (The colon-style branch of the
Go function computes nothing and is omitted.) -/
def parseDirectWith (s : GoStr) : List GoStr → Option (GoStr × GoStr × GoStr)
  | [] => none
  | sep :: rest =>
    match indexPos s sep with
    | none => parseDirectWith s rest
    | some idx =>
      let subject := goTrim (s.take idx)
      let object := goTrim (s.drop (idx + sep.length))
      if subject.isEmpty || object.isEmpty then parseDirectWith s rest
      else some (subject, sep, object)

/-- `parseChineseDirect`. -/
def parseChineseDirect (s : GoStr) : Option (GoStr × GoStr × GoStr) :=
  parseDirectWith s cnSeps

/-- The needle `"'s "` of `parseEnglish` (apostrophe written as scalar 39). -/
def engPossNeedle : GoStr := [Char.ofNat 39, 's', ' ']

/-- The `"X is Y"` / `"X are Y"` fallbacks of `parseEnglish`. -/
def parseEnglishDirect (s ls : GoStr) : Option (GoStr × GoStr × GoStr) :=
  match indexPos ls (gs " is ") with
  | some i =>
    let subject := goTrim (s.take i)
    let object := goTrim (s.drop (i + 4))
    if !subject.isEmpty && !object.isEmpty then some (subject, gs "is", object)
    else
      match indexPos ls (gs " are ") with
      | some j =>
        let subject := goTrim (s.take j)
        let object := goTrim (s.drop (j + 5))
        if !subject.isEmpty && !object.isEmpty then some (subject, gs "are", object) else none
      | none => none
  | none =>
    match indexPos ls (gs " are ") with
    | some j =>
      let subject := goTrim (s.take j)
      let object := goTrim (s.drop (j + 5))
      if !subject.isEmpty && !object.isEmpty then some (subject, gs "are", object) else none
    | none => none

/-- `parseEnglish`: `"X's A is Y"`, else `"X is Y"`, else `"X are Y"`. -/
def parseEnglish (s : GoStr) : Option (GoStr × GoStr × GoStr) :=
  let ls := goToLower s
  let direct := parseEnglishDirect s ls
  match indexPos ls engPossNeedle with
  | some i =>
    let subj := goTrim (s.take i)
    let rest := s.drop (i + 3)
    let rl := goToLower rest
    match indexPos rl (gs " is ") with
    | some j =>
      let relation := goTrim (rest.take j ++ gs " is")
      let object := goTrim (rest.drop (j + 4))
      if !subj.isEmpty && !object.isEmpty then some (subj, relation, object) else direct
    | none => direct
  | none => direct

/-- `ExtractFactTriple`. -/
def ExtractFactTriple (fact0 : GoStr) : FactTriple :=
  let fact := goTrim fact0
  if fact.isEmpty then {}
  else
    let fact := goTrimRightCut (gs "。.!！?？ ") fact
    let fact := goJoin (gs " ") (goFields fact)
    match parseChinesePossessiveIs fact with
    | some (su, r, o) => finalizeTriple su r o
    | none =>
      match parseChineseAttributeIs fact with
      | some (su, r, o) => finalizeTriple su r o
      | none =>
        match parseChineseDirect fact with
        | some (su, r, o) => finalizeTriple su r o
        | none =>
          match parseEnglish fact with
          | some (su, r, o) => finalizeTriple su r o
          | none => {}

/-! ## The fact store state

The SQLite tables touched by the fact engine, as lists of rows in table
order.  Row timestamps (`created_at` / `updated_at`) are not inspected by
any claim and are projected away;  `user_fact_conflicts.id` autoincrement
is modelled by the `nextConflictId` counter.  The semantic-search mirror
(`summaries` / `embeddings` rows written post-commit by
`syncFactToSearch` / `removeFactFromSearch`) lives in different tables and
never touches the four tables below;  it is outside this state. -/

/-- A `user_facts` row (`UNIQUE fact_key`). -/
structure UserFactRow where
  factKey : GoStr
  fact : GoStr
  isActive : Bool
deriving DecidableEq, Repr

/-- A `user_facts_history` row (append-only). -/
structure HistRow where
  factKey : GoStr
  fact : GoStr
  status : GoStr
  version : Nat
  sourceType : GoStr
  sourceKey : GoStr
deriving DecidableEq, Repr

/-- A `user_fact_conflicts` row. -/
structure ConflictRow where
  id : Nat
  factKey : GoStr
  existingFact : GoStr
  proposedFact : GoStr
  sourceType : GoStr
  sourceKey : GoStr
  status : GoStr
deriving DecidableEq, Repr

/-- A `pending_facts` row. -/
structure PendingRow where
  id : Nat
  fact : GoStr
  factKey : GoStr
  confidence : ℚ
  sourceType : GoStr
  sourceKey : GoStr
  status : GoStr
  createdAt : GoStr
deriving DecidableEq, Repr

/-- The fact-engine database state. -/
structure FactState where
  userFacts : List UserFactRow
  history : List HistRow
  conflicts : List ConflictRow
  nextConflictId : Nat
  pending : List PendingRow
deriving DecidableEq, Repr

/-- `getActiveUserFactByKey`:
`SELECT fact FROM user_facts WHERE fact_key=? AND is_active=1 LIMIT 1`. -/
def getActiveUserFactByKey (s : FactState) (factKey : GoStr) : Option GoStr :=
  if factKey.isEmpty then none
  else (s.userFacts.find? (fun r => r.factKey == factKey && r.isActive)).map (·.fact)

/-- `getActiveUserFactBySlotKey`: scan the active rows in table order and
return the first whose re-parsed triple has the wanted slot key. -/
def getActiveUserFactBySlotKey (s : FactState) (slotKey : GoStr) :
    Option (GoStr × GoStr) :=
  if slotKey.isEmpty then none
  else
    ((s.userFacts.filter (·.isActive)).find?
        (fun r => (ExtractFactTriple r.fact).slotKey == slotKey)).map
      (fun r => (r.factKey, r.fact))

/-- `upsertUserFact`: `INSERT … ON CONFLICT(fact_key) DO UPDATE`. -/
def upsertUserFact (s : FactState) (fact factKey : GoStr) (active : Bool) : FactState :=
  if factKey.isEmpty then s
  else if s.userFacts.any (·.factKey == factKey) then
    { s with userFacts := (s.userFacts.map
        (fun r => if r.factKey == factKey then { r with fact := fact, isActive := active } else r)) }
  else { s with userFacts := s.userFacts ++ [⟨factKey, fact, active⟩] }

/-- `nextUserFactVersion`: `COALESCE(MAX(version),0) + 1` over the rows
with this `fact_key`. -/
def nextUserFactVersion (s : FactState) (factKey : GoStr) : Nat :=
  if factKey.isEmpty then 1
  else (((s.history.filter (·.factKey == factKey)).map (·.version)).foldr max 0) + 1

/-- `appendUserFactHistory` (with its defaulting of empty status/source
fields and of a non-positive version). -/
def appendUserFactHistory (s : FactState)
    (factKey fact status sourceType sourceKey : GoStr) (version : Nat) : FactState :=
  if factKey.isEmpty || fact.isEmpty then s
  else
    let status := if status.isEmpty then gs "active" else status
    let sourceType := if sourceType.isEmpty then gs "unknown" else sourceType
    let sourceKey := if sourceKey.isEmpty then gs "-" else sourceKey
    let version := if version == 0 then nextUserFactVersion s factKey else version
    { s with history := s.history ++ [⟨factKey, fact, status, version, sourceType, sourceKey⟩] }

/-- `createUserFactConflict`: de-duplicates on
`(status='conflict', fact_key, proposed_fact)` (taking the largest id, as
`ORDER BY id DESC LIMIT 1` does), else inserts a fresh `'conflict'` row.
Returns the row id (0 when the guard rejects). -/
def createUserFactConflict (s : FactState)
    (factKey existingFact proposedFact sourceType sourceKey : GoStr) : Nat × FactState :=
  if factKey.isEmpty || existingFact.isEmpty || proposedFact.isEmpty then (0, s)
  else
    let matching := s.conflicts.filter
      (fun c => c.status == gs "conflict" && c.factKey == factKey && c.proposedFact == proposedFact)
    let existingID := (matching.map (·.id)).foldr max 0
    if 0 < existingID then (existingID, s)
    else
      (s.nextConflictId,
        { s with
          conflicts := s.conflicts ++
            [⟨s.nextConflictId, factKey, existingFact, proposedFact, sourceType, sourceKey,
              gs "conflict"⟩],
          nextConflictId := s.nextConflictId + 1 })

/-! ## The fact engine (port of `proposeRememberFactWith`, `RetractFact`,
`RememberPendingFact`, `RejectPendingFact`)

`when time.Time` enters only through `when.Format("2006-01-02")` (the
default source key) and row timestamps;  the former is the `dateKey`
parameter, the latter are projected away. -/

/-- Outcome of a remember proposal. -/
structure RememberOutcome where
  status : GoStr
  factKey : GoStr := []
  conflictId : Nat := 0
  existing : GoStr := []
deriving DecidableEq, Repr

/-- `proposeRememberFactWith` (the transactional body). -/
def proposeRememberFactWith (s : FactState)
    (content0 sourceType0 sourceKey0 dateKey : GoStr) : RememberOutcome × FactState :=
  let content := goTrim content0
  if content.isEmpty then ({ status := gs "noop" }, s)
  else
    let factKey := deriveFactKeyFromSubject content
    if factKey.isEmpty then ({ status := gs "noop" }, s)
    else
      let sourceType := if sourceType0.isEmpty then gs "remember" else sourceType0
      let sourceKey := if sourceKey0.isEmpty then dateKey else sourceKey0
      match getActiveUserFactByKey s factKey with
      | some existing =>
        if goTrim existing == goTrim content then
          ({ status := gs "noop", factKey := factKey }, upsertUserFact s existing factKey true)
        else
          let cs := createUserFactConflict s factKey existing content sourceType sourceKey
          let s2 := if 0 < cs.1 then
              appendUserFactHistory cs.2 factKey content (gs "conflict") sourceType sourceKey 0
            else cs.2
          ({ status := gs "conflict", factKey := factKey, conflictId := cs.1,
             existing := existing }, s2)
      | none =>
        let tr := ExtractFactTriple content
        let slotKey := tr.slotKey
        match (if slotKey.isEmpty then none else getActiveUserFactBySlotKey s slotKey) with
        | some ef =>
          if goTrim ef.2 == goTrim content then
            ({ status := gs "noop", factKey := ef.1 }, upsertUserFact s ef.2 ef.1 true)
          else
            let cs := createUserFactConflict s ef.1 ef.2 content sourceType sourceKey
            let s2 := if 0 < cs.1 then
                appendUserFactHistory cs.2 ef.1 content (gs "conflict") sourceType sourceKey 0
              else cs.2
            ({ status := gs "conflict", factKey := ef.1, conflictId := cs.1,
               existing := ef.2 }, s2)
        | none =>
          let s1 := upsertUserFact s content factKey true
          let s2 := appendUserFactHistory s1 factKey content (gs "active") sourceType sourceKey 0
          ({ status := gs "remembered", factKey := factKey }, s2)

/-- `ProposeRememberFact`: the exported transactional wrapper.  In the
pure model the transaction always commits (the body never errors, and the
bounded busy-retry of `withDBRetry` is invisible);  the post-commit
best-effort `syncFactToSearch` touches only the search-mirror tables,
which are outside `FactState`. -/
def ProposeRememberFact (s : FactState)
    (content0 sourceType sourceKey dateKey : GoStr) : RememberOutcome × FactState :=
  let content := goTrim content0
  if content.isEmpty then ({ status := gs "noop" }, s)
  else proposeRememberFactWith s content sourceType sourceKey dateKey

/-- `RetractFact` (transactional body;  the post-commit
`removeFactFromSearch` touches only the search-mirror tables).  Returns
the new state and the removed fact key (`[]` when nothing was active). -/
def RetractFact (s : FactState)
    (content0 sourceType0 sourceKey0 dateKey : GoStr) : FactState × GoStr :=
  let content := goTrim content0
  if content.isEmpty then (s, [])
  else
    let sourceType := if sourceType0.isEmpty then gs "forget" else sourceType0
    let sourceKey := if sourceKey0.isEmpty then dateKey else sourceKey0
    let factKey := deriveFactKeyFromSubject content
    match (if factKey.isEmpty then none else getActiveUserFactByKey s factKey) with
    | some existing =>
      let s1 := upsertUserFact s existing factKey false
      let s2 := appendUserFactHistory s1 factKey existing (gs "forgotten") sourceType sourceKey 0
      (s2, factKey)
    | none =>
      let tr := ExtractFactTriple content
      let slotKey := tr.slotKey
      match (if slotKey.isEmpty then none else getActiveUserFactBySlotKey s slotKey) with
      | some ef =>
        let s1 := upsertUserFact s ef.2 ef.1 false
        let s2 := appendUserFactHistory s1 ef.1 ef.2 (gs "forgotten") sourceType sourceKey 0
        (s2, ef.1)
      | none => (s, [])

/-- `getPendingFactByID`: `SELECT … FROM pending_facts WHERE id=? LIMIT 1`. -/
def getPendingFactByID (s : FactState) (id : Nat) : Option PendingRow :=
  s.pending.find? (·.id == id)

/-- `RememberPendingFact`.  The transactional body errors with
`"pending fact not found"` when the id is absent or its status is not
`'pending'`;  `withTx` then rolls back, so the returned state is the
original one.  On success the pending row's status becomes `accepted`
(or `conflict`), after running `proposeRememberFactWith`. -/
def RememberPendingFact (s : FactState) (id : Nat) (dateKey : GoStr) :
    Except GoStr RememberOutcome × FactState :=
  match getPendingFactByID s id with
  | none => (Except.error (gs "pending fact not found"), s)
  | some pf =>
    if pf.status != gs "pending" then (Except.error (gs "pending fact not found"), s)
    else
      let os1 := proposeRememberFactWith s pf.fact (gs "pending") pf.sourceKey dateKey
      let newStatus := if os1.1.status == gs "conflict" then gs "conflict" else gs "accepted"
      (Except.ok os1.1,
        { os1.2 with pending := (os1.2.pending.map
            (fun p => if p.id == id then { p with status := newStatus } else p)) })

/-- `RejectPendingFact`: same not-found contract;  on success the pending
row is marked `rejected` and a best-effort `rejected` history row is
appended under the fact's derived key. -/
def RejectPendingFact (s : FactState) (id : Nat) : Except GoStr Unit × FactState :=
  match getPendingFactByID s id with
  | none => (Except.error (gs "pending fact not found"), s)
  | some pf =>
    if pf.status != gs "pending" then (Except.error (gs "pending fact not found"), s)
    else
      let s1 := { s with pending := (s.pending.map
          (fun p => if p.id == id then { p with status := gs "rejected" } else p)) }
      let factKey := deriveFactKeyFromSubject pf.fact
      let s2 := appendUserFactHistory s1 factKey (goTrim pf.fact) (gs "rejected")
        (gs "pending_reject") (gs "pending:" ++ Nat.toDigits 10 pf.id) 0
      (Except.ok (), s2)

/-! ### Non-emptiness of derived fact keys -/

theorem fieldsAux_members_ne_nil (s : GoStr) :
    (∀ cur, cur ≠ [] → ∀ w ∈ fieldsAux cur s, w ≠ []) ∧
    (∀ w ∈ fieldsAux [] s, w ≠ []) := by
  induction s with
  | nil =>
    refine ⟨fun cur hcur w hw => ?_, fun w hw => ?_⟩
    · have hcur2 : cur.isEmpty = false := by simpa [List.isEmpty_iff] using hcur
      have hw2 : w = cur.reverse := by simpa [fieldsAux, hcur2] using hw
      simp [hw2, hcur]
    · simp [fieldsAux] at hw
  | cons c t ih =>
    obtain ⟨pt, qt⟩ := ih
    refine ⟨fun cur hcur w hw => ?_, fun w hw => ?_⟩
    · by_cases hc : goIsSpace c
      · have hcur2 : cur.isEmpty = false := by simpa [List.isEmpty_iff] using hcur
        rw [show fieldsAux cur (c :: t) = cur.reverse :: fieldsAux [] t by
          simp [fieldsAux, hc, hcur2]] at hw
        rcases List.mem_cons.mp hw with h1 | h1
        · simp [h1, hcur]
        · exact qt w h1
      · rw [show fieldsAux cur (c :: t) = fieldsAux (c :: cur) t by simp [fieldsAux, hc]] at hw
        exact pt (c :: cur) (by simp) w hw
    · by_cases hc : goIsSpace c
      · rw [show fieldsAux [] (c :: t) = fieldsAux [] t by simp [fieldsAux, hc]] at hw
        exact qt w hw
      · rw [show fieldsAux [] (c :: t) = fieldsAux [c] t by simp [fieldsAux, hc]] at hw
        exact pt [c] (by simp) w hw

theorem fieldsAux_ne_nil_of_cur (t : GoStr) (cur : GoStr) (hcur : cur ≠ []) :
    fieldsAux cur t ≠ [] := by
  induction t generalizing cur with
  | nil => simp [fieldsAux, List.isEmpty_iff, hcur]
  | cons c t ih =>
    by_cases hc : goIsSpace c
    · simp [fieldsAux, hc, List.isEmpty_iff, hcur]
    · simp only [fieldsAux, hc, if_false]
      exact ih (c :: cur) (by simp)

theorem fieldsAux_ne_nil (s : GoStr) (h : ∃ c ∈ s, ¬ goIsSpace c) :
    ∀ cur, fieldsAux cur s ≠ [] := by
  induction s with
  | nil => simp at h
  | cons c t ih =>
    intro cur
    by_cases hc : goIsSpace c
    · have ht : ∃ x ∈ t, ¬ goIsSpace x := by
        rcases h with ⟨x, hx, hxs⟩
        rcases List.mem_cons.mp hx with h1 | h1
        · exact absurd hc (h1 ▸ hxs)
        · exact ⟨x, h1, hxs⟩
      by_cases hcur : cur.isEmpty
      · simp only [fieldsAux, hc, if_true, hcur, if_true]
        exact ih ht []
      · simp [fieldsAux, hc, hcur]
    · simp only [fieldsAux, hc, if_false]
      exact fieldsAux_ne_nil_of_cur t (c :: cur) (by simp)

theorem head_not_space_of_trim (l : GoStr) (h : l.dropWhile goIsSpace = l)
    (c : Char) (t : GoStr) (he : l = c :: t) : ¬ goIsSpace c := by
  intro hpc
  subst he
  have h1 : (c :: t).dropWhile goIsSpace = t.dropWhile goIsSpace := by
    simp [List.dropWhile, hpc]
  have h2 : t.dropWhile goIsSpace = c :: t := by rw [← h1, h]
  have := length_dropWhile_le goIsSpace t
  rw [h2] at this
  simp at this

theorem goTrim_exists_nonspace (f : GoStr) (h : goTrim f ≠ []) :
    ∃ c ∈ goTrim f, ¬ goIsSpace c := by
  have hd : (goTrim f).dropWhile goIsSpace = goTrim f := by
    unfold goTrim
    exact dropWhile_trimRightP goIsSpace _ (dropWhile_idem goIsSpace f)
  cases he : goTrim f with
  | nil => exact absurd he h
  | cons c t =>
    exact ⟨c, by simp [he], head_not_space_of_trim (goTrim f) hd c t he⟩

theorem intercalate_ne_nil (sep : GoStr) (x : GoStr) (xs : List GoStr)
    (hx : x ≠ []) : List.intercalate sep (x :: xs) ≠ [] := by
  cases xs with
  | nil => simpa [List.intercalate, List.intersperse]
  | cons y ys => simp [List.intercalate, List.intersperse, hx]

theorem goFields_eq (s : GoStr) : goFields s = fieldsAux [] s := rfl

theorem normalizeFactKey_trim_ne_nil (f : GoStr) (h : goTrim f ≠ []) :
    normalizeFactKey (goTrim f) ≠ [] := by
  unfold normalizeFactKey goJoin goToLower
  rw [goTrim_idem]
  have hne := fieldsAux_ne_nil (goTrim f) (goTrim_exists_nonspace f h) []
  cases hf : goFields (goTrim f) with
  | nil => exact absurd (goFields_eq (goTrim f) ▸ hf) hne
  | cons x xs =>
    have hmem : x ∈ fieldsAux [] (goTrim f) := by
      rw [← goFields_eq, hf]
      exact List.mem_cons_self x xs
    have hx : x ≠ [] := (fieldsAux_members_ne_nil (goTrim f)).2 x hmem
    intro hmap
    exact intercalate_ne_nil (gs " ") x xs hx (List.map_eq_nil_iff.mp hmap)

theorem deriveFactKey_trim_ne_nil (f : GoStr) (h : goTrim f ≠ []) :
    deriveFactKeyFromSubject (goTrim f) ≠ [] := by
  unfold deriveFactKeyFromSubject
  by_cases hs : (extractFactSubject (goTrim f)).isEmpty
  · simpa [hs] using normalizeFactKey_trim_ne_nil f h
  · simp [hs, gs]

/-! ### Small projection lemmas for the state operations -/

theorem upsertUserFact_history (s : FactState) (f k : GoStr) (a : Bool) :
    (upsertUserFact s f k a).history = s.history := by
  simp only [upsertUserFact]
  split
  · rfl
  · split <;> rfl

theorem upsertUserFact_conflicts (s : FactState) (f k : GoStr) (a : Bool) :
    (upsertUserFact s f k a).conflicts = s.conflicts := by
  simp only [upsertUserFact]
  split
  · rfl
  · split <;> rfl

theorem appendUserFactHistory_userFacts (s : FactState)
    (k f stat sty sky : GoStr) (v : Nat) :
    (appendUserFactHistory s k f stat sty sky v).userFacts = s.userFacts := by
  simp only [appendUserFactHistory]
  split <;> rfl

theorem createUserFactConflict_userFacts (s : FactState) (k e p sty sky : GoStr) :
    (createUserFactConflict s k e p sty sky).2.userFacts = s.userFacts := by
  simp only [createUserFactConflict]
  split
  · rfl
  · split <;> rfl

theorem createUserFactConflict_history (s : FactState) (k e p sty sky : GoStr) :
    (createUserFactConflict s k e p sty sky).2.history = s.history := by
  simp only [createUserFactConflict]
  split
  · rfl
  · split <;> rfl

theorem getActiveUserFactByKey_none_of_inactive (s : FactState) (k : GoStr)
    (h : ∀ r ∈ s.userFacts, r.isActive = false) :
    getActiveUserFactByKey s k = none := by
  unfold getActiveUserFactByKey
  split
  · rfl
  · rw [List.find?_eq_none.mpr]
    · rfl
    · intro r hr
      simp [h r hr]

theorem getActiveUserFactBySlotKey_none_of_inactive (s : FactState) (sk : GoStr)
    (h : ∀ r ∈ s.userFacts, r.isActive = false) :
    getActiveUserFactBySlotKey s sk = none := by
  unfold getActiveUserFactBySlotKey
  split
  · rfl
  · rw [List.filter_eq_nil_iff.mpr]
    · rfl
    · intro r hr
      simp [h r hr]

theorem find?_active_map_upd (l : List UserFactRow) (k c : GoStr)
    (hany : l.any (·.factKey == k) = true) :
    (l.map (fun r => if r.factKey == k then { r with fact := c, isActive := true } else r)).find?
        (fun r => r.factKey == k && r.isActive) =
      some ⟨k, c, true⟩ := by
  induction l with
  | nil => simp at hany
  | cons r t ih =>
    by_cases hr : r.factKey = k
    · simp only [List.map_cons, hr, beq_self_eq_true, if_true]
      rw [List.find?_cons_of_pos _ (by simp)]
    · have hr2 : (r.factKey == k) = false := by simp [hr]
      have hany2 : t.any (·.factKey == k) = true := by
        simpa [List.any_cons, hr2] using hany
      simp only [List.map_cons, hr2, Bool.false_eq_true, if_false]
      rw [List.find?_cons_of_neg _ (by simp [hr2])]
      exact ih hany2

theorem find?_active_append (l : List UserFactRow) (k c : GoStr)
    (hany : l.any (·.factKey == k) = false) :
    ((l ++ [(⟨k, c, true⟩ : UserFactRow)]).find? (fun r => r.factKey == k && r.isActive)) =
      some ⟨k, c, true⟩ := by
  induction l with
  | nil =>
    simp only [List.nil_append]
    rw [List.find?_cons_of_pos _ (by simp)]
  | cons r t ih =>
    have hr2 : (r.factKey == k) = false := by
      by_contra hc
      simp only [Bool.not_eq_false] at hc
      simp [List.any_cons, hc] at hany
    have hany2 : t.any (·.factKey == k) = false := by
      simpa [List.any_cons, hr2] using hany
    rw [List.cons_append, List.find?_cons_of_neg _ (by simp [hr2])]
    exact ih hany2

theorem getActive_after_upsert_true (s : FactState) (c k : GoStr) (hk : k ≠ []) :
    getActiveUserFactByKey (upsertUserFact s c k true) k = some c := by
  have hk2 : k.isEmpty = false := by simpa [List.isEmpty_iff]
  unfold upsertUserFact getActiveUserFactByKey
  simp only [hk2, Bool.false_eq_true, if_false]
  by_cases hany : s.userFacts.any (·.factKey == k)
  · simp only [hany, if_true]
    rw [find?_active_map_upd s.userFacts k c hany]
    rfl
  · simp only [Bool.not_eq_true] at hany
    simp only [hany, Bool.false_eq_true, if_false]
    rw [find?_active_append s.userFacts k c hany]
    rfl

theorem getActiveUserFactByKey_congr (s s2 : FactState) (k : GoStr)
    (h : s.userFacts = s2.userFacts) :
    getActiveUserFactByKey s k = getActiveUserFactByKey s2 k := by
  unfold getActiveUserFactByKey
  rw [h]

theorem appendUserFactHistory_eq (s : FactState) (k f stat sty sky : GoStr) (v : Nat)
    (hk : k ≠ []) (hf : f ≠ []) (hstat : stat.isEmpty = false) :
    appendUserFactHistory s k f stat sty sky v =
      { s with history := s.history ++
          [⟨k, f, stat, if v == 0 then nextUserFactVersion s k else v,
            if sty.isEmpty then gs "unknown" else sty,
            if sky.isEmpty then gs "-" else sky⟩] } := by
  have hkE : k.isEmpty = false := by simpa [List.isEmpty_iff] using hk
  have hfE : f.isEmpty = false := by simpa [List.isEmpty_iff] using hf
  simp [appendUserFactHistory, hkE, hfE, hstat]

theorem mem_upsert_false (s : FactState) (c k : GoStr) (hk : k ≠ []) :
    ∀ r ∈ (upsertUserFact s c k false).userFacts, r.factKey = k → r.isActive = false := by
  have hkE : k.isEmpty = false := by simpa [List.isEmpty_iff] using hk
  intro r hr hrk
  unfold upsertUserFact at hr
  simp only [hkE, Bool.false_eq_true, if_false] at hr
  by_cases hany : s.userFacts.any (·.factKey == k)
  · simp only [hany, if_true] at hr
    rcases List.mem_map.mp hr with ⟨r0, _, heq⟩
    by_cases h0 : r0.factKey = k
    · simp only [h0, beq_self_eq_true, if_true] at heq
      rw [← heq]
    · simp only [beq_eq_false_iff_ne.mpr h0, Bool.false_eq_true, if_false] at heq
      exact absurd (heq ▸ hrk) h0
  · simp only [Bool.not_eq_true] at hany
    simp only [hany, Bool.false_eq_true, if_false] at hr
    rcases List.mem_append.mp hr with h0 | h0
    · have := List.any_eq_false.mp hany r h0
      simp [hrk] at this
    · simp only [List.mem_singleton] at h0
      rw [h0]

theorem nextVersion_succ_of_versions (s : FactState) (k : GoStr) (hk : k.isEmpty = false)
    (vs : List Nat) (h : (s.history.filter (fun r => r.factKey == k)).map (·.version) = vs) :
    nextUserFactVersion s k = vs.foldr max 0 + 1 := by
  unfold nextUserFactVersion
  simp [hk, h]

/-- **C10** — `RememberPendingFact` and `RejectPendingFact`, called with an
id that is absent from `pending_facts` or whose status is not `'pending'`,
both return the error `"pending fact not found"` and leave the entire
database state unchanged (the transaction rolls back). -/
theorem C10_pending_not_found_rolls_back (s : FactState) (id : Nat) (dateKey : GoStr)
    (h : ∀ pf, getPendingFactByID s id = some pf → pf.status ≠ gs "pending") :
    RememberPendingFact s id dateKey = (Except.error (gs "pending fact not found"), s) ∧
    RejectPendingFact s id = (Except.error (gs "pending fact not found"), s) := by
  cases hfind : getPendingFactByID s id with
  | none =>
    constructor
    · simp [RememberPendingFact, hfind]
    · simp [RejectPendingFact, hfind]
  | some pf =>
    have hst : (pf.status != gs "pending") = true := by
      simpa [bne_iff_ne] using h pf hfind
    constructor
    · simp [RememberPendingFact, hfind, hst]
    · simp [RejectPendingFact, hfind, hst]

/-- Witness for C10: on the empty store, accepting or rejecting pending
fact id 1 fails with the not-found error and changes nothing. -/
theorem C10_pending_not_found_rolls_back_witness :
    RememberPendingFact ⟨[], [], [], 1, []⟩ 1 (gs "2026-01-10") =
        (Except.error (gs "pending fact not found"), ⟨[], [], [], 1, []⟩) ∧
    RejectPendingFact ⟨[], [], [], 1, []⟩ 1 =
        (Except.error (gs "pending fact not found"), ⟨[], [], [], 1, []⟩) :=
  C10_pending_not_found_rolls_back ⟨[], [], [], 1, []⟩ 1 (gs "2026-01-10")
    (by intro pf hpf; simp [getPendingFactByID] at hpf)

/-- **C2** — starting from a state with no active user fact and no history
rows for `factKey(f)`, `ProposeRememberFact(f)` followed by
`RetractFact(f)` leaves `user_facts` with no active row for `factKey(f)`
and appends exactly two history rows for that key: first status
`active` (version 1), then `forgotten` (version 2). -/
theorem C2_remember_then_forget
    (s : FactState) (f st1 sk1 d1 st2 sk2 d2 : GoStr)
    (hf : goTrim f ≠ [])
    (hact : ∀ r ∈ s.userFacts, r.isActive = false)
    (hhist : ∀ h ∈ s.history, h.factKey ≠ deriveFactKeyFromSubject (goTrim f)) :
    (∀ r ∈ (RetractFact (ProposeRememberFact s f st1 sk1 d1).2 f st2 sk2 d2).1.userFacts,
        r.factKey = deriveFactKeyFromSubject (goTrim f) → r.isActive = false) ∧
    ((RetractFact (ProposeRememberFact s f st1 sk1 d1).2 f st2 sk2 d2).1.history.filter
          (fun h => h.factKey == deriveFactKeyFromSubject (goTrim f))).map
        (fun h => (h.status, h.version, h.fact)) =
      [(gs "active", 1, goTrim f), (gs "forgotten", 2, goTrim f)] := by
  have hcE : (goTrim f).isEmpty = false := by simpa [List.isEmpty_iff] using hf
  have hk_ne := deriveFactKey_trim_ne_nil f hf
  have hkE : (deriveFactKeyFromSubject (goTrim f)).isEmpty = false := by
    simpa [List.isEmpty_iff] using hk_ne
  set k := deriveFactKeyFromSubject (goTrim f) with hkdef
  -- the state after the proposal
  set sA := appendUserFactHistory (upsertUserFact s (goTrim f) k true) k (goTrim f)
    (gs "active") (if st1.isEmpty then gs "remember" else st1)
    (if sk1.isEmpty then d1 else sk1) 0 with hsAdef
  have hstep1 : (ProposeRememberFact s f st1 sk1 d1).2 = sA := by
    simp only [ProposeRememberFact, proposeRememberFactWith, hcE, goTrim_idem, ← hkdef, hkE,
      Bool.false_eq_true, if_false,
      getActiveUserFactByKey_none_of_inactive s _ hact,
      getActiveUserFactBySlotKey_none_of_inactive s _ hact, ite_self]
  -- the history row appended by the proposal
  have hfiltS : s.history.filter (fun r => r.factKey == k) = [] := by
    rw [List.filter_eq_nil_iff]
    intro r hr
    simp [hhist r hr]
  have hupfacts := upsertUserFact_history s (goTrim f) k true
  have hvers1 : nextUserFactVersion (upsertUserFact s (goTrim f) k true) k = 1 := by
    have h1 : ((upsertUserFact s (goTrim f) k true).history.filter
        (fun r => r.factKey == k)).map (·.version) = [] := by
      rw [hupfacts, hfiltS]
      rfl
    rw [nextVersion_succ_of_versions _ k hkE [] h1]
    decide
  have hsA : sA = { upsertUserFact s (goTrim f) k true with
      history := s.history ++ [⟨k, goTrim f, gs "active", 1,
        if (if st1.isEmpty then gs "remember" else st1).isEmpty then gs "unknown"
          else (if st1.isEmpty then gs "remember" else st1),
        if (if sk1.isEmpty then d1 else sk1).isEmpty then gs "-"
          else (if sk1.isEmpty then d1 else sk1)⟩] } := by
    rw [hsAdef, appendUserFactHistory_eq _ _ _ _ _ _ _ hk_ne hf (by rfl)]
    rw [hvers1, hupfacts]
    simp
  -- the retract step
  have hgetA : getActiveUserFactByKey sA k = some (goTrim f) := by
    rw [getActiveUserFactByKey_congr sA (upsertUserFact s (goTrim f) k true) k
      (by rw [hsA])]
    exact getActive_after_upsert_true s (goTrim f) k hk_ne
  have hstep2 : (RetractFact sA f st2 sk2 d2).1 =
      appendUserFactHistory (upsertUserFact sA (goTrim f) k false) k (goTrim f)
        (gs "forgotten") (if st2.isEmpty then gs "forget" else st2)
        (if sk2.isEmpty then d2 else sk2) 0 := by
    simp only [RetractFact, hcE, goTrim_idem, ← hkdef, hkE, Bool.false_eq_true, if_false,
      hgetA]
  rw [hstep1, hstep2]
  -- version of the second history row
  have hupA := upsertUserFact_history sA (goTrim f) k false
  have hfiltA : sA.history.filter (fun r => r.factKey == k) =
      [⟨k, goTrim f, gs "active", 1,
        if (if st1.isEmpty then gs "remember" else st1).isEmpty then gs "unknown"
          else (if st1.isEmpty then gs "remember" else st1),
        if (if sk1.isEmpty then d1 else sk1).isEmpty then gs "-"
          else (if sk1.isEmpty then d1 else sk1)⟩] := by
    rw [hsA]
    simp only [List.filter_append, hfiltS, List.nil_append]
    rw [List.filter_cons_of_pos (by simp)]
    rfl
  have hvers2 : nextUserFactVersion (upsertUserFact sA (goTrim f) k false) k = 2 := by
    have h1 : ((upsertUserFact sA (goTrim f) k false).history.filter
        (fun r => r.factKey == k)).map (·.version) = [1] := by
      rw [hupA, hfiltA]
      rfl
    rw [nextVersion_succ_of_versions _ k hkE [1] h1]
    decide
  rw [appendUserFactHistory_eq _ _ _ _ _ _ _ hk_ne hf (by rfl), hvers2]
  constructor
  · intro r hr hrk
    simp only [appendUserFactHistory_userFacts] at hr
    exact mem_upsert_false sA (goTrim f) k hk_ne r hr hrk
  · simp only [hupA, List.filter_append, hfiltA]
    rw [List.filter_cons_of_pos (by simp)]
    simp

/-- Witness for C2: the round trip on the empty store with the fact
`我喜欢蓝色`. -/
theorem C2_remember_then_forget_witness :
    goTrim (gs "我喜欢蓝色") ≠ [] ∧
    ((∀ r ∈ (RetractFact
          (ProposeRememberFact ⟨[], [], [], 1, []⟩ (gs "我喜欢蓝色") (gs "remember_cli")
            (gs "2026-01-10") (gs "2026-01-10")).2
          (gs "我喜欢蓝色") (gs "forget_cli") (gs "2026-01-11") (gs "2026-01-11")).1.userFacts,
        r.factKey = deriveFactKeyFromSubject (goTrim (gs "我喜欢蓝色")) → r.isActive = false) ∧
      ((RetractFact
          (ProposeRememberFact ⟨[], [], [], 1, []⟩ (gs "我喜欢蓝色") (gs "remember_cli")
            (gs "2026-01-10") (gs "2026-01-10")).2
          (gs "我喜欢蓝色") (gs "forget_cli") (gs "2026-01-11") (gs "2026-01-11")).1.history.filter
            (fun h => h.factKey == deriveFactKeyFromSubject (goTrim (gs "我喜欢蓝色")))).map
          (fun h => (h.status, h.version, h.fact)) =
        [(gs "active", 1, goTrim (gs "我喜欢蓝色")),
         (gs "forgotten", 2, goTrim (gs "我喜欢蓝色"))]) :=
  ⟨by decide,
    C2_remember_then_forget ⟨[], [], [], 1, []⟩ (gs "我喜欢蓝色") (gs "remember_cli")
      (gs "2026-01-10") (gs "2026-01-10") (gs "forget_cli") (gs "2026-01-11") (gs "2026-01-11")
      (by decide) (by intro r hr; simp at hr) (by intro h hh; simp at hh)⟩

theorem appendUserFactHistory_conflicts (s : FactState)
    (k f stat sty sky : GoStr) (v : Nat) :
    (appendUserFactHistory s k f stat sty sky v).conflicts = s.conflicts := by
  simp only [appendUserFactHistory]
  split <;> rfl

theorem getActiveUserFactByKey_none_of (s : FactState) (k : GoStr)
    (h : ∀ row ∈ s.userFacts, row.isActive = true → row.factKey ≠ k) :
    getActiveUserFactByKey s k = none := by
  unfold getActiveUserFactByKey
  split
  · rfl
  · rw [List.find?_eq_none.mpr]
    · rfl
    · intro r hr
      cases ha : r.isActive
      · simp [ha]
      · simp [ha, h r hr ha]

theorem createUserFactConflict_pos (s : FactState) (k e p sty sky : GoStr)
    (hk : k ≠ []) (he : e ≠ []) (hp : p ≠ []) (hid : 1 ≤ s.nextConflictId) :
    1 ≤ (createUserFactConflict s k e p sty sky).1 ∧
    ((createUserFactConflict s k e p sty sky).2.conflicts = s.conflicts ∨
      (createUserFactConflict s k e p sty sky).2.conflicts =
        s.conflicts ++ [⟨s.nextConflictId, k, e, p, sty, sky, gs "conflict"⟩]) ∧
    (∃ cf ∈ (createUserFactConflict s k e p sty sky).2.conflicts,
      cf.status = gs "conflict" ∧ cf.factKey = k ∧ cf.proposedFact = p) := by
  have hkE : k.isEmpty = false := by simpa [List.isEmpty_iff] using hk
  have heE : e.isEmpty = false := by simpa [List.isEmpty_iff] using he
  have hpE : p.isEmpty = false := by simpa [List.isEmpty_iff] using hp
  set matching := s.conflicts.filter
    (fun cf => cf.status == gs "conflict" && cf.factKey == k && cf.proposedFact == p)
    with hmatch
  by_cases hpos : 0 < (matching.map (·.id)).foldr max 0
  · have h2eq : createUserFactConflict s k e p sty sky =
        ((matching.map (·.id)).foldr max 0, s) := by
      simp only [createUserFactConflict, hkE, heE, hpE, Bool.or_self, Bool.or_false,
        Bool.false_eq_true, if_false, ← hmatch]
      rw [if_pos hpos]
    refine ⟨by rw [h2eq]; exact hpos, by rw [h2eq]; exact Or.inl rfl, ?_⟩
    rw [h2eq]
    cases hm : matching with
    | nil =>
      rw [hm] at hpos
      simp at hpos
    | cons cf rest =>
      have hmem : cf ∈ matching := by rw [hm]; exact List.mem_cons_self cf rest
      have := List.mem_filter.mp (hmatch ▸ hmem)
      refine ⟨cf, this.1, ?_⟩
      have hpred := this.2
      simp only [Bool.and_eq_true, beq_iff_eq] at hpred
      exact ⟨hpred.1.1, hpred.1.2, hpred.2⟩
  · have h2eq : createUserFactConflict s k e p sty sky =
        (s.nextConflictId,
          { s with
            conflicts := (s.conflicts ++ [⟨s.nextConflictId, k, e, p, sty, sky, gs "conflict"⟩]),
            nextConflictId := (s.nextConflictId + 1) }) := by
      simp only [createUserFactConflict, hkE, heE, hpE, Bool.or_self, Bool.or_false,
        Bool.false_eq_true, if_false, ← hmatch]
      rw [if_neg hpos]
    rw [h2eq]
    exact ⟨hid, Or.inr rfl,
      ⟨⟨s.nextConflictId, k, e, p, sty, sky, gs "conflict"⟩, by simp, rfl, rfl, rfl⟩⟩

/-- **C1** — for every state containing an active user fact whose parsed
triple yields a non-empty slot key, proposing a fact with different
trimmed text, a different (and unoccupied) derived `fact_key`, and the
same slot key returns outcome `conflict`, leaves `user_facts` entirely
unchanged, creates (or de-duplicates to) one `conflict`-status row for
`(existing fact_key, proposed text)`, and appends exactly one history
row with status `conflict` keyed to the existing `fact_key`.
`r` is the first active row (in table-scan order) whose triple occupies
the proposed fact's slot. -/
theorem C1_slot_conflict
    (s : FactState) (c st sk d : GoStr) (r : UserFactRow)
    (hc : goTrim c ≠ [])
    (hkey : ∀ row ∈ s.userFacts, row.isActive = true →
      row.factKey ≠ deriveFactKeyFromSubject (goTrim c))
    (hslot : (ExtractFactTriple (goTrim c)).slotKey ≠ [])
    (hfind : (s.userFacts.filter (·.isActive)).find?
        (fun row => (ExtractFactTriple row.fact).slotKey ==
          (ExtractFactTriple (goTrim c)).slotKey) = some r)
    (htext : goTrim r.fact ≠ goTrim c)
    (hrk : r.factKey ≠ [])
    (hid : 1 ≤ s.nextConflictId) :
    (ProposeRememberFact s c st sk d).1.status = gs "conflict" ∧
    (ProposeRememberFact s c st sk d).1.factKey = r.factKey ∧
    (ProposeRememberFact s c st sk d).1.existing = r.fact ∧
    (ProposeRememberFact s c st sk d).2.userFacts = s.userFacts ∧
    ((ProposeRememberFact s c st sk d).2.conflicts = s.conflicts ∨
      (ProposeRememberFact s c st sk d).2.conflicts = s.conflicts ++
        [⟨s.nextConflictId, r.factKey, r.fact, goTrim c,
          if st.isEmpty then gs "remember" else st,
          if sk.isEmpty then d else sk, gs "conflict"⟩]) ∧
    (∃ cf ∈ (ProposeRememberFact s c st sk d).2.conflicts,
      cf.status = gs "conflict" ∧ cf.factKey = r.factKey ∧ cf.proposedFact = goTrim c) ∧
    (∃ h : HistRow, (ProposeRememberFact s c st sk d).2.history = s.history ++ [h] ∧
      h.factKey = r.factKey ∧ h.status = gs "conflict" ∧ h.fact = goTrim c) := by
  have hcE : (goTrim c).isEmpty = false := by simpa [List.isEmpty_iff] using hc
  have hk_ne := deriveFactKey_trim_ne_nil c hc
  have hkE : (deriveFactKeyFromSubject (goTrim c)).isEmpty = false := by
    simpa [List.isEmpty_iff] using hk_ne
  have hget : getActiveUserFactByKey s (deriveFactKeyFromSubject (goTrim c)) = none :=
    getActiveUserFactByKey_none_of s _ hkey
  have hslotE : (ExtractFactTriple (goTrim c)).slotKey.isEmpty = false := by
    simpa [List.isEmpty_iff] using hslot
  have hgetSlot : getActiveUserFactBySlotKey s (ExtractFactTriple (goTrim c)).slotKey =
      some (r.factKey, r.fact) := by
    unfold getActiveUserFactBySlotKey
    simp only [hslotE, Bool.false_eq_true, if_false, hfind]
    rfl
  have hrfact_ne : r.fact ≠ [] := by
    intro h0
    have hpred := List.find?_some hfind
    rw [h0] at hpred
    have hnil : (ExtractFactTriple ([] : GoStr)).slotKey = [] := rfl
    rw [hnil] at hpred
    exact hslot (beq_iff_eq.mp hpred).symm
  have htextB : (goTrim r.fact == goTrim c) = false := by
    simpa using htext
  set stN := (if st.isEmpty then gs "remember" else st) with hstN
  set skN := (if sk.isEmpty then d else sk) with hskN
  obtain ⟨hpos, hconfl, hexist⟩ :=
    createUserFactConflict_pos s r.factKey r.fact (goTrim c) stN skN hrk hrfact_ne hc hid
  set cs := createUserFactConflict s r.factKey r.fact (goTrim c) stN skN with hcs
  have hstep : ProposeRememberFact s c st sk d =
      ({ status := gs "conflict", factKey := r.factKey, conflictId := cs.1,
         existing := r.fact },
       appendUserFactHistory cs.2 r.factKey (goTrim c) (gs "conflict") stN skN 0) := by
    simp only [ProposeRememberFact, proposeRememberFactWith, hcE, goTrim_idem, hkE,
      Bool.false_eq_true, if_false, hget, hslotE, hgetSlot, htextB, ← hstN, ← hskN, ← hcs]
    rw [if_pos (show 0 < cs.1 from hpos)]
  have hcs_hist := createUserFactConflict_history s r.factKey r.fact (goTrim c) stN skN
  have hcs_facts := createUserFactConflict_userFacts s r.factKey r.fact (goTrim c) stN skN
  rw [hstep]
  have hh : cs.2.history = s.history := hcs_hist
  have huf : cs.2.userFacts = s.userFacts := hcs_facts
  refine ⟨rfl, rfl, rfl, ?_, ?_, ?_, ?_⟩
  · rw [appendUserFactHistory_userFacts]
    exact huf
  · rw [appendUserFactHistory_conflicts]
    exact hconfl
  · rw [appendUserFactHistory_conflicts]
    exact hexist
  · rw [appendUserFactHistory_eq _ _ _ _ _ _ _ hrk hc (by rfl)]
    refine ⟨⟨r.factKey, goTrim c, gs "conflict",
      if (0 == 0) = true then nextUserFactVersion cs.2 r.factKey else 0,
      if stN.isEmpty then gs "unknown" else stN,
      if skN.isEmpty then gs "-" else skN⟩, ?_, rfl, rfl, rfl⟩
    simp only [hh]

/-- Witness for C1: the spec's slot-conflict scenario — active fact
`娜娜的真名是刘娜`, proposal `娜娜真名是王娜` (different fact keys, same
`slot:sub:娜娜|rel:name` slot). -/
theorem C1_slot_conflict_witness :
    goTrim (gs "娜娜真名是王娜") ≠ [] ∧
    (ProposeRememberFact
        ⟨[⟨gs "subject:娜娜的真名", gs "娜娜的真名是刘娜", true⟩], [], [], 1, []⟩
        (gs "娜娜真名是王娜") (gs "remember_cli") (gs "2026-01-10") (gs "2026-01-10")).1.status =
      gs "conflict" ∧
    (ProposeRememberFact
        ⟨[⟨gs "subject:娜娜的真名", gs "娜娜的真名是刘娜", true⟩], [], [], 1, []⟩
        (gs "娜娜真名是王娜") (gs "remember_cli") (gs "2026-01-10") (gs "2026-01-10")).2.userFacts =
      [⟨gs "subject:娜娜的真名", gs "娜娜的真名是刘娜", true⟩] := by
  have h := C1_slot_conflict
    ⟨[⟨gs "subject:娜娜的真名", gs "娜娜的真名是刘娜", true⟩], [], [], 1, []⟩
    (gs "娜娜真名是王娜") (gs "remember_cli") (gs "2026-01-10") (gs "2026-01-10")
    ⟨gs "subject:娜娜的真名", gs "娜娜的真名是刘娜", true⟩
    (by decide) (by decide) (by decide) (by decide) (by decide) (by decide) (by decide)
  exact ⟨by decide, h.1, h.2.2.2.1⟩

/-! ## Embedding drift guard (port of `CheckEmbeddingDrift`,
`saveEmbeddingHistory` and the guard blocks of `ensureWeekly` /
`ensureMonthly`, which are line-for-line identical)

Vectors are lists of exact rationals.  `summary_embeddings_history` for
one summary is a list of vectors, most recent first (`loadLastEmbedding`
is `ORDER BY created_at DESC LIMIT 1`, i.e. the head;  a save prepends).
The 1:1 `embeddings` row for the summary is an `Option`. -/

/-- Decides `cosineDistance(a, b) > θ` exactly, where Go computes
`cosineDistance = 1 - dot/(√na·√nb)` (and returns `1` outright on a
length mismatch or a zero norm).  For `0 ≤ 1-θ`, `1 - dot/√(na·nb) > θ`
iff `dot < (1-θ)·√(na·nb)` iff `dot < 0` or `dot² < (1-θ)²·na·nb`, which
is square-root-free and therefore decidable over `ℚ`. -/
def cosineDistGT (a b : List ℚ) (θ : ℚ) : Bool :=
  if a.length ≠ b.length then decide (1 > θ)
  else
    let dot := ((a.zip b).map (fun p => p.1 * p.2)).foldr (· + ·) 0
    let na := (a.map (fun x => x * x)).foldr (· + ·) 0
    let nb := (b.map (fun x => x * x)).foldr (· + ·) 0
    if na = 0 ∨ nb = 0 then decide (1 > θ)
    else decide (dot < 0 ∨ (0 ≤ dot ∧ dot * dot < ((1 - θ) * (1 - θ)) * (na * nb)))

/-- `DriftWarnThreshold = 0.15`. -/
def DriftWarnThreshold : ℚ := 15 / 100

/-- `DriftBlockThreshold = 0.25`. -/
def DriftBlockThreshold : ℚ := 25 / 100

/-- `CheckEmbeddingDrift`: `nil` on the first embedding, else `BLOCK`
when the distance to the most recent historical vector exceeds `0.25`,
`WARN` when it exceeds `0.15`. -/
def CheckEmbeddingDrift (hist : List (List ℚ)) (newVec : List ℚ) : Option GoStr :=
  match hist.head? with
  | none => none
  | some oldVec =>
    if cosineDistGT oldVec newVec DriftBlockThreshold then some (gs "BLOCK")
    else if cosineDistGT oldVec newVec DriftWarnThreshold then some (gs "WARN")
    else none

/-- The per-summary embedding state touched by the drift guard. -/
structure DriftState where
  history : List (List ℚ)
  embedding : Option (List ℚ)
deriving DecidableEq, Repr

/-- `ensureEmbedding`, restricted to this summary's state: it returns
early when an `embeddings` row already exists, else writes the vector the
embed call produced (`none` models a failed call: best-effort, no write). -/
def ensureEmbeddingStep (st : DriftState) (vec : Option (List ℚ)) : DriftState :=
  match st.embedding with
  | some _ => st
  | none =>
    match vec with
    | none => st
    | some v => { st with embedding := some v }

/-- The drift-guard block of `ensureWeekly` / `ensureMonthly`, from the
decoded drift-check embedding onward, followed by the `ensureEmbedding`
call.  `fetched` is the embedding decoded from the guard's own HTTP call
(`none` when the request/decoding fails, which skips the whole guard);
`ensureVec` is the vector `ensureEmbedding`'s own call would produce.
Returns the new state and the logged warning level.  On `BLOCK` the Go
code `return nil`s *before* `saveEmbeddingHistory`, so neither the
history nor the 1:1 row is touched. -/
def summaryDriftGuard (st : DriftState) (fetched : Option (List ℚ))
    (ensureVec : Option (List ℚ)) : DriftState × Option GoStr :=
  match fetched with
  | none => (ensureEmbeddingStep st ensureVec, none)
  | some vec =>
    let warn := CheckEmbeddingDrift st.history vec
    if warn == some (gs "BLOCK") then (st, warn)
    else
      (ensureEmbeddingStep { st with history := vec :: st.history } ensureVec, warn)

theorem ensureEmbeddingStep_history (st : DriftState) (v : Option (List ℚ)) :
    (ensureEmbeddingStep st v).history = st.history := by
  unfold ensureEmbeddingStep
  cases st.embedding with
  | none => cases v <;> rfl
  | some e => rfl

theorem ensureEmbeddingStep_embedding (st : DriftState) (v : Option (List ℚ)) :
    (ensureEmbeddingStep st v).embedding =
      (match st.embedding with
       | some e => some e
       | none => v) := by
  unfold ensureEmbeddingStep
  cases he : st.embedding with
  | none => cases v <;> simp [he]
  | some e => simp [he]

/-- Counterexample to **C4** as stated: with one historical vector
`[1,0]` and a newly fetched vector `[0,1]` (cosine distance `1 > 0.25`,
hence `BLOCK`), the new vector is *not* appended to the summary embedding
history — the weekly/monthly guard returns before `saveEmbeddingHistory`. -/
theorem C4_block_skips_history_counterexample :
    (summaryDriftGuard ⟨[[1, 0]], none⟩ (some [0, 1]) (some [0, 1])).2 = some (gs "BLOCK") ∧
    (summaryDriftGuard ⟨[[1, 0]], none⟩ (some [0, 1]) (some [0, 1])).1.history = [[1, 0]] ∧
    ¬ [0, 1] ∈ (summaryDriftGuard ⟨[[1, 0]], none⟩ (some [0, 1]) (some [0, 1])).1.history := by
  refine ⟨by decide, by decide, by decide⟩

/-- **C4 (amended)** — after the drift check, the newly fetched vector is
appended to the summary embedding history *only when the drift is not
blocked*;  on `BLOCK` neither the history nor the 1:1 embedding row
changes (the summary row itself is kept).  When not blocked, the 1:1 row
is written only if it is missing (`ensureEmbedding` returns early on an
existing row), so it is in particular never overwritten under `BLOCK`. -/
theorem C4_drift_guard_amended (st : DriftState) (vec : List ℚ)
    (ensureVec : Option (List ℚ)) :
    (CheckEmbeddingDrift st.history vec = some (gs "BLOCK") →
      summaryDriftGuard st (some vec) ensureVec = (st, some (gs "BLOCK"))) ∧
    (CheckEmbeddingDrift st.history vec ≠ some (gs "BLOCK") →
      (summaryDriftGuard st (some vec) ensureVec).1.history = vec :: st.history ∧
      (summaryDriftGuard st (some vec) ensureVec).1.embedding =
        (match st.embedding with
         | some e => some e
         | none => ensureVec) ∧
      (summaryDriftGuard st (some vec) ensureVec).2 =
        CheckEmbeddingDrift st.history vec) := by
  constructor
  · intro hb
    simp [summaryDriftGuard, hb]
  · intro hb
    have hbeq : (CheckEmbeddingDrift st.history vec == some (gs "BLOCK")) = false := by
      simpa using hb
    refine ⟨?_, ?_, ?_⟩
    · simp only [summaryDriftGuard, hbeq, Bool.false_eq_true, if_false,
        ensureEmbeddingStep_history]
    · simp only [summaryDriftGuard, hbeq, Bool.false_eq_true, if_false,
        ensureEmbeddingStep_embedding]
    · simp only [summaryDriftGuard, hbeq, Bool.false_eq_true, if_false]

/-- Witness for the amended C4, both branches: a blocked fetch leaves the
state untouched;  an unblocked fetch (distance `0`) prepends to history
and fills the missing 1:1 row from `ensureEmbedding`'s call. -/
theorem C4_drift_guard_amended_witness :
    (summaryDriftGuard ⟨[[1, 0]], none⟩ (some [0, 1]) (some [0, 1])) =
        (⟨[[1, 0]], none⟩, some (gs "BLOCK")) ∧
    ((summaryDriftGuard ⟨[[1, 0]], none⟩ (some [1, 0]) (some [2, 0])).1.history =
          [1, 0] :: [[1, 0]] ∧
      (summaryDriftGuard ⟨[[1, 0]], none⟩ (some [1, 0]) (some [2, 0])).1.embedding =
        (match (none : Option (List ℚ)) with
         | some e => some e
         | none => some [2, 0]) ∧
      (summaryDriftGuard ⟨[[1, 0]], none⟩ (some [1, 0]) (some [2, 0])).2 =
        CheckEmbeddingDrift [[1, 0]] [1, 0]) :=
  ⟨(C4_drift_guard_amended ⟨[[1, 0]], none⟩ [0, 1] (some [0, 1])).1 (by decide),
   (C4_drift_guard_amended ⟨[[1, 0]], none⟩ [1, 0] (some [2, 0])).2 (by decide)⟩

/-! ### C7: the implicit-fact auto-proposal heuristic

`parseAutoFactsIntent` (src/unnamed/part_006), `looksLikeSelfStatement`
(src/unnamed/part_002) and `maybeAutoProposePendingFromUserInput`
(src/unnamed/part_008).  The last is modelled by its *decision*: `some f`
exactly when the Go function reaches the `ProposePendingRememberFact`
call, with `f` the fact text it passes; `none` when it returns without
proposing.  The config/db/time plumbing (nil-db early return, date-key
formatting) carries no information about the decision and is omitted. -/

/-- The explicit remember intent markers of `parseAutoFactsIntent`. -/
def rememberIntentPres : List GoStr :=
  [gs "记住：", gs "记住:", gs "请记住：", gs "请记住:", gs "帮我记住：", gs "帮我记住:"]

/-- The explicit forget intent markers of `parseAutoFactsIntent`. -/
def forgetIntentPres : List GoStr :=
  [gs "忘记：", gs "忘记:", gs "请忘记：", gs "请忘记:", gs "帮我忘记：", gs "帮我忘记:"]

/-- `parseAutoFactsIntent` (part_006): `some (action, fact)` iff the Go
function returns `ok = true`. -/
def parseAutoFactsIntent (input : GoStr) : Option (GoStr × GoStr) :=
  let t := goTrim input
  if t.isEmpty then none
  else
    match rememberIntentPres.find? (fun p => goStartsWith t p) with
    | some p => some (gs "remember", goTrim (goDropPre p t))
    | none =>
      match forgetIntentPres.find? (fun p => goStartsWith t p) with
      | some p => some (gs "forget", goTrim (goDropPre p t))
      | none => none

/-- `looksLikeSelfStatement` (part_002). -/
def looksLikeSelfStatement (text0 : GoStr) : Bool :=
  let text := goTrim text0
  if text.isEmpty then false
  else if !goStartsWith text (gs "我") then false
  else if goEndsWith text (gs "吗") || goEndsWith text (gs "?") ||
      goEndsWith text (gs "？") then false
  else if goContains text (gs "帮我") || goContains text (gs "请你") then false
  else true

/-- The decision taken by `maybeAutoProposePendingFromUserInput`
(part_008): `some f` iff the heuristic silently proposes pending fact
text `f`.  `List.length` on a `GoStr` is Go's `len([]rune text))`. -/
def maybeAutoProposePendingDecision (input : GoStr) : Option GoStr :=
  if (goTrim input).isEmpty then none
  else if goStartsWith (goTrim input) (gs "/") then none
  else if (parseAutoFactsIntent (goTrim input)).isSome then none
  else if !looksLikeSelfStatement (goTrim input) then none
  else if !(goContains (goTrim input) (gs "是") || goContains (goTrim input) (gs "叫") ||
      goContains (goTrim input) (gs "生日") || goContains (goTrim input) (gs "最喜欢") ||
      goContains (goTrim input) (gs "喜欢")) then none
  else if (goTrim input).length < 4 ∨ 140 < (goTrim input).length then none
  else some (goTrim (goTrimRightCut (gs "。.!！") (goTrim input)))

/-- C7, counterexample.  The input 我叫小明 has exactly 4 Unicode scalars,
so under the claimed bound — length *strictly greater than* 4 — no pending
proposal may be made for it; yet the heuristic proposes it (the code gate
is `len([]rune(text)) < 4`, i.e. length ≥ 4). -/
theorem C7_four_scalar_counterexample :
    maybeAutoProposePendingDecision (gs "我叫小明") = some (gs "我叫小明") ∧
      (goTrim (gs "我叫小明")).length = 4 := by decide

/-- C7 (amended): the heuristic proposes a pending fact **iff** the
trimmed input is nonempty, does not start with `/`, is not an explicit
remember/forget intent, looks like a first-person self-statement, contains
an attribute marker, and has length **at least 4** (not strictly greater
than 4) and at most 140 Unicode scalars; the proposed text is the trimmed
input with trailing 。.!！ stripped. -/
theorem C7_auto_propose_amended (input : GoStr) :
    ((maybeAutoProposePendingDecision input).isSome = true ↔
      ((goTrim input).isEmpty = false ∧
        goStartsWith (goTrim input) (gs "/") = false ∧
        parseAutoFactsIntent (goTrim input) = none ∧
        looksLikeSelfStatement (goTrim input) = true ∧
        (goContains (goTrim input) (gs "是") = true ∨
          goContains (goTrim input) (gs "叫") = true ∨
          goContains (goTrim input) (gs "生日") = true ∨
          goContains (goTrim input) (gs "最喜欢") = true ∨
          goContains (goTrim input) (gs "喜欢") = true) ∧
        4 ≤ (goTrim input).length ∧ (goTrim input).length ≤ 140)) ∧
    (∀ f, maybeAutoProposePendingDecision input = some f →
      f = goTrim (goTrimRightCut (gs "。.!！") (goTrim input))) := by
  constructor
  · unfold maybeAutoProposePendingDecision
    split_ifs with h0 h1 h2 h3 h4 h5
    · simp [h0]
    · simp [h1]
    · simp only [Option.isSome_none, Bool.false_eq_true, false_iff]
      rintro ⟨-, -, hno, -⟩
      rw [hno] at h2
      simp at h2
    · simp only [Bool.not_eq_true'] at h3
      simp [h3]
    · simp only [Bool.not_eq_true', Bool.or_eq_false_iff] at h4
      obtain ⟨⟨⟨⟨m1, m2⟩, m3⟩, m4⟩, m5⟩ := h4
      simp [m1, m2, m3, m4, m5]
    · simp only [Option.isSome_none, Bool.false_eq_true, false_iff]
      rintro ⟨-, -, -, -, -, hlo, hhi⟩
      rcases h5 with h | h <;> omega
    · simp only [Option.isSome_some, true_iff]
      push_neg at h5
      refine ⟨by simpa using h0, by simpa using h1, ?_, by simpa using h3,
        ?_, h5.1, h5.2⟩
      · cases hp : parseAutoFactsIntent (goTrim input) with
        | none => rfl
        | some v => rw [hp] at h2; simp at h2
      · have hx : (goContains (goTrim input) (gs "是") ||
            goContains (goTrim input) (gs "叫") ||
            goContains (goTrim input) (gs "生日") ||
            goContains (goTrim input) (gs "最喜欢") ||
            goContains (goTrim input) (gs "喜欢")) = true := by
          cases hb : (goContains (goTrim input) (gs "是") ||
              goContains (goTrim input) (gs "叫") ||
              goContains (goTrim input) (gs "生日") ||
              goContains (goTrim input) (gs "最喜欢") ||
              goContains (goTrim input) (gs "喜欢")) with
          | false => exact absurd (by rw [hb]; decide) h4
          | true => rfl
        simp only [Bool.or_eq_true] at hx
        tauto
  · intro f hf
    unfold maybeAutoProposePendingDecision at hf
    split_ifs at hf
    exact (Option.some.inj hf).symm

/-- Witness for the amended C7: the theorem applied to 我叫小红。
(five scalars, one of them stripped trailing punctuation). -/
theorem C7_auto_propose_amended_witness :
    gs "我叫小红" = goTrim (goTrimRightCut (gs "。.!！") (goTrim (gs "我叫小红。"))) :=
  (C7_auto_propose_amended (gs "我叫小红。")).2 (gs "我叫小红") (by decide)

/-! ### C3: SearchWithScore (src/internal/app/search.go)

The HTTP embed call is an input (`qv`, `qn` — the embedded trimmed
query); `rerankTexts` is an oracle argument `rr` (`some scores` on
success, `none` on error).  Go float64 arithmetic is exact rational
arithmetic, under which the `IsNaN || IsInf` guard can never fire.
`extractHumanText(json)` is JSON processing outside the model, so each
row carries its value in the `humanText` field.  Go's `sort.Slice` is
unstable; the model uses a stable insertion sort, one of its allowed
refinements (the theorems below depend only on membership). -/

/-- The configuration fields `SearchWithScore` / `shouldRerank` read.
The Go `int` fields are nonnegative in every shipped configuration and
are modelled as `Nat` (`RerankTopN <= 0` becomes `= 0`). -/
structure SearchCfg where
  searchMinScore : ℚ
  searchMinStrong : ℚ
  searchMinGap : ℚ
  searchTopK : Nat
  rerankTopN : Nat
  rerankMinBatch : Nat
  enableRerank : Bool
  rerankForce : Bool
  rerankMode : GoStr
deriving DecidableEq, Repr

/-- `SearchHit` (search.go). -/
structure SearchHit where
  score : ℚ
  embScore : ℚ
  typ : GoStr
  date : GoStr
  text : GoStr
deriving DecidableEq, Repr

/-- `shouldRerank` (search.go).  The wildcard row is unreachable from
`SearchWithScore` (it needs an empty `hits` with `RerankMinBatch = 0`,
where Go would panic on `hits[0]`; `SearchWithScore` never passes an
empty list). -/
def shouldRerank (hits : List SearchHit) (cfg : SearchCfg) : Bool :=
  if !cfg.enableRerank then false
  else if cfg.rerankForce then decide (2 ≤ hits.length)
  else if hits.length < cfg.rerankMinBatch then false
  else if hits.length == 1 then false
  else
    match hits with
    | h1 :: h2 :: _ =>
      let top1 := h1.embScore
      let top2 := h2.embScore
      let gap := top1 - top2
      let mode0 := goToLower (goTrim cfg.rerankMode)
      let mode := if mode0.isEmpty then gs "conservative" else mode0
      if mode == gs "always" then true
      else if mode == gs "ambiguous" then
        if top1 < cfg.searchMinStrong then false
        else
          let t2a := cfg.searchMinStrong - cfg.searchMinGap
          let t2min := if t2a < cfg.searchMinScore then cfg.searchMinScore else t2a
          if top2 < t2min then false
          else decide (gap ≤ cfg.searchMinGap * (9 / 5))
      else if mode == gs "smart" then decide (cfg.searchMinStrong ≤ top1)
      else
        if top1 < cfg.searchMinStrong then false
        else if gap < cfg.searchMinGap * (9 / 5) then false
        else true
    | _ => false

/-- One row of the `embeddings ⋈ summaries` join, with the float32 blob
decoded into `vec` and `extractHumanText(json)` precomputed. -/
structure EmbRow where
  typ : GoStr
  key : GoStr
  humanText : GoStr
  text : GoStr
  vec : List ℚ
  l2 : ℚ
  dim : Nat
deriving DecidableEq, Repr

/-- `dotProductExactDim` (search.go): `none` when the blob holds fewer
than `dim` floats. -/
def dotProductExactDim (q : List ℚ) (vec : List ℚ) (dim : Nat) : Option ℚ :=
  if vec.length < dim then none
  else some ((((q.take dim).zip (vec.take dim)).map (fun p => p.1 * p.2)).foldr (· + ·) 0)

/-- One iteration of `SearchWithScore`'s recall loop: `some hit` iff the
row survives every `continue`. -/
def searchRecallRow (cfg : SearchCfg) (qv : List ℚ) (qn : ℚ) (r : EmbRow) :
    Option SearchHit :=
  if r.dim ≠ qv.length ∨ r.l2 = 0 then none
  else
    match dotProductExactDim qv r.vec r.dim with
    | none => none
    | some dot =>
      if dot / (qn * r.l2) < cfg.searchMinScore then none
      else if (goTrim (if r.typ == gs "fact" && !(goTrim r.text).isEmpty
          then goTrim r.text else r.humanText)).isEmpty then none
      else some ⟨dot / (qn * r.l2), dot / (qn * r.l2), r.typ, r.key,
        goTrim (if r.typ == gs "fact" && !(goTrim r.text).isEmpty
          then goTrim r.text else r.humanText)⟩

/-- The recall loop over every joined row, in table order. -/
def searchRecall (cfg : SearchCfg) (rows : List EmbRow) (qv : List ℚ) (qn : ℚ) :
    List SearchHit :=
  rows.filterMap (searchRecallRow cfg qv qn)

/-- Insertion step of the stable sort: `x` goes before the first `y`
with `lt x y`, after every earlier element. -/
def insertBefore {α : Type} (lt : α → α → Bool) (x : α) : List α → List α
  | [] => [x]
  | y :: ys => if lt x y then x :: y :: ys else y :: insertBefore lt x ys

/-- Stable sort by strict comparator `lt` ("must come before"). -/
def sortByComp {α : Type} (lt : α → α → Bool) (l : List α) : List α :=
  l.foldl (fun acc x => insertBefore lt x acc) []

/-- Step 4 of `SearchWithScore`: the truncation bound handed to rerank. -/
def searchTopN (cfg : SearchCfg) : Nat :=
  if (if cfg.rerankTopN = 0 then cfg.searchTopK else cfg.rerankTopN) < cfg.searchTopK
  then cfg.searchTopK
  else (if cfg.rerankTopN = 0 then cfg.searchTopK else cfg.rerankTopN)

/-- Step 5 of `SearchWithScore`: the Intent Gate plus the rerank
overwrite.  On oracle error or a length mismatch the hits pass through
unchanged; otherwise each hit's `score` is overwritten with the raw
cross-encoder score and the list is re-sorted (stably) by it. -/
def searchRerankStage (cfg : SearchCfg) (rr : List GoStr → Option (List ℚ))
    (hits : List SearchHit) : List SearchHit :=
  if shouldRerank hits cfg then
    match rr (hits.map (fun h => h.text)) with
    | some scores =>
      if scores.length = hits.length then
        sortByComp (fun a b => decide (b.score < a.score))
          ((hits.zip scores).map (fun p => { p.1 with score := p.2 }))
      else hits
    | none => hits
  else hits

/-- `SearchWithScore` (search.go), from the embedded query onward: recall,
sort by `EmbScore` descending, truncate to `topN`, optional rerank,
truncate to `SearchTopK`.  (The `query == \x22\x22` early return precedes the
embed call and is outside the model.) -/
def SearchWithScore (cfg : SearchCfg) (rows : List EmbRow) (qv : List ℚ)
    (qn : ℚ) (rr : List GoStr → Option (List ℚ)) : List SearchHit :=
  if qn = 0 then []
  else if (searchRecall cfg rows qv qn).isEmpty then []
  else
    (searchRerankStage cfg rr
        ((sortByComp (fun a b => decide (b.embScore < a.embScore))
            (searchRecall cfg rows qv qn)).take (searchTopN cfg))).take
      cfg.searchTopK

theorem mem_insertBefore {α : Type} (lt : α → α → Bool) (x a : α) (l : List α) :
    a ∈ insertBefore lt x l ↔ a = x ∨ a ∈ l := by
  induction l with
  | nil => simp [insertBefore]
  | cons y ys ih =>
    simp only [insertBefore]
    split
    · simp
    · simp only [List.mem_cons, ih]
      tauto

theorem mem_foldl_insertBefore {α : Type} (lt : α → α → Bool) (a : α)
    (l acc : List α) :
    a ∈ l.foldl (fun acc x => insertBefore lt x acc) acc ↔ a ∈ acc ∨ a ∈ l := by
  induction l generalizing acc with
  | nil => simp
  | cons x xs ih =>
    simp only [List.foldl_cons]
    rw [ih]
    simp only [mem_insertBefore, List.mem_cons]
    tauto

theorem mem_sortByComp {α : Type} (lt : α → α → Bool) (a : α) (l : List α) :
    a ∈ sortByComp lt l ↔ a ∈ l := by
  unfold sortByComp
  rw [mem_foldl_insertBefore]
  simp

theorem searchRecallRow_some (cfg : SearchCfg) (qv : List ℚ) (qn : ℚ)
    (r : EmbRow) (h : SearchHit)
    (hx : searchRecallRow cfg qv qn r = some h) :
    cfg.searchMinScore ≤ h.embScore ∧ h.score = h.embScore := by
  unfold searchRecallRow at hx
  split at hx
  · simp at hx
  · split at hx
    · simp at hx
    · generalize hD : (if r.typ == gs "fact" && !(goTrim r.text).isEmpty
          then goTrim r.text else r.humanText) = D at hx
      split_ifs at hx with hlt hemp
      obtain rfl := Option.some.inj hx
      exact ⟨le_of_not_lt hlt, rfl⟩

theorem searchRerankStage_mem (cfg : SearchCfg)
    (rr : List GoStr → Option (List ℚ)) (l : List SearchHit) (h : SearchHit)
    (hmem : h ∈ searchRerankStage cfg rr l) :
    ∃ h0 ∈ l, h.embScore = h0.embScore ∧
      (h.score = h0.score ∨
        ∃ docs scores, rr docs = some scores ∧ h.score ∈ scores) := by
  unfold searchRerankStage at hmem
  split_ifs at hmem with hsr
  · split at hmem
    next scores hrr =>
      split_ifs at hmem with hlen
      · rw [mem_sortByComp] at hmem
        obtain ⟨p, hp, hfp⟩ := List.mem_map.mp hmem
        obtain ⟨a, sc⟩ := p
        obtain ⟨ha, hsc⟩ := List.of_mem_zip hp
        subst hfp
        exact ⟨a, ha, rfl,
          Or.inr ⟨l.map (fun h => h.text), scores, hrr, hsc⟩⟩
      · exact ⟨h, hmem, rfl, Or.inl rfl⟩
    next hrr =>
      exact ⟨h, hmem, rfl, Or.inl rfl⟩
  · exact ⟨h, hmem, rfl, Or.inl rfl⟩

/-- Concrete search configuration for the C3 analysis: min score `3/4`,
top-k `5`, forced rerank. -/
def cfgC3 : SearchCfg :=
  ⟨3 / 4, 0, 0, 5, 20, 0, true, true, gs ""⟩

/-- Two unit-norm fact rows: cosines `1` and `4/5` against query
`[1, 0]`, both at or above the `3/4` floor. -/
def rowsC3 : List EmbRow :=
  [⟨gs "fact", gs "2025-01-01", gs "", gs "aaa", [1, 0], 1, 2⟩,
   ⟨gs "fact", gs "2025-01-02", gs "", gs "bbb", [4 / 5, 3 / 5], 1, 2⟩]

/-- A rerank oracle answering raw cross-encoder scores `1/10` and `1/20`. -/
def rrC3 : List GoStr → Option (List ℚ) :=
  fun _ => some [1 / 10, 1 / 20]

/-- C3, counterexample.  When the rerank stage runs, each hit's `Score`
is overwritten with the raw cross-encoder score and never re-checked
against `cfg.SearchMinScore`: here both recalled hits pass the `3/4`
floor on their embedding score, yet the returned list contains a hit
whose final `Score` (`1/10`) is below it — refuting "every hit … has a
Score … greater than or equal to cfg.SearchMinScore". -/
theorem C3_rerank_overwrites_below_min :
    ∃ h ∈ SearchWithScore cfgC3 rowsC3 [1, 0] 1 rrC3,
      h.score < cfgC3.searchMinScore := by decide

/-- C3 (amended): every returned hit's `EmbScore` is at least
`cfg.SearchMinScore` (and NaN/Inf cannot arise in exact arithmetic), and
its `Score` either equals its `EmbScore` (no rerank overwrite) or is one
of the raw scores some rerank-oracle call returned — the min-score floor
is guaranteed for `EmbScore` only, not for the final `Score`. -/
theorem C3_search_min_score_amended (cfg : SearchCfg) (rows : List EmbRow)
    (qv : List ℚ) (qn : ℚ) (rr : List GoStr → Option (List ℚ)) :
    ∀ h ∈ SearchWithScore cfg rows qv qn rr,
      cfg.searchMinScore ≤ h.embScore ∧
        (h.score = h.embScore ∨
          ∃ docs scores, rr docs = some scores ∧ h.score ∈ scores) := by
  intro h hmem
  unfold SearchWithScore at hmem
  split_ifs at hmem with hqn hempty
  · simp at hmem
  · simp at hmem
  · have hmem2 := List.take_subset _ _ hmem
    obtain ⟨h0, hh0, hemb, hsc⟩ := searchRerankStage_mem cfg rr _ h hmem2
    have hh0b := List.take_subset _ _ hh0
    rw [mem_sortByComp] at hh0b
    unfold searchRecall at hh0b
    obtain ⟨r, hr, hrow⟩ := List.mem_filterMap.mp hh0b
    obtain ⟨hmin, heq⟩ := searchRecallRow_some cfg qv qn r h0 hrow
    refine ⟨hmin.trans_eq hemb.symm, ?_⟩
    rcases hsc with hs | hs
    · exact Or.inl (by rw [hs, heq]; exact hemb.symm)
    · exact Or.inr hs

/-- Witness for the amended C3: the theorem applied to the forced-rerank
run of `cfgC3`/`rowsC3`, at its first returned hit (embedding score `1`,
overwritten cross-encoder score `1/10`). -/
theorem C3_search_min_score_amended_witness :
    cfgC3.searchMinScore ≤
        (⟨1 / 10, 1, gs "fact", gs "2025-01-01", gs "aaa"⟩ : SearchHit).embScore ∧
      ((⟨1 / 10, 1, gs "fact", gs "2025-01-01", gs "aaa"⟩ : SearchHit).score =
          (⟨1 / 10, 1, gs "fact", gs "2025-01-01", gs "aaa"⟩ : SearchHit).embScore ∨
        ∃ docs scores, rrC3 docs = some scores ∧
          (⟨1 / 10, 1, gs "fact", gs "2025-01-01", gs "aaa"⟩ : SearchHit).score ∈ scores) :=
  C3_search_min_score_amended cfgC3 rowsC3 [1, 0] 1 rrC3
    ⟨1 / 10, 1, gs "fact", gs "2025-01-01", gs "aaa"⟩ (by decide)

/-! ### C5: BuildChatContext, step 0 (src/unnamed/part_005)

The claim concerns the remembered-fact evidence block, assembled before
`resolvePromptBlocks`.  `activeFacts` is the `user_facts` query result
that `loadActiveUserFacts` reads (active rows, `updated_at`-descending,
before the `LIMIT`); the step 1–3 evidences (daily-summary JSON
filtering, search, recent-raw file reads) are parameters. -/

/-- `memoryEvidence` (part_005). -/
structure MemoryEvidence where
  role : GoStr
  source : GoStr
  content : GoStr
  priority : Nat
deriving DecidableEq, Repr

/-- `loadActiveUserFacts` (README.zh-CN.md): truncate the ordered active
fact texts to the limit; a nonpositive limit (here `0`) defaults to 50. -/
def loadActiveUserFacts (activeFacts : List GoStr) (limit : Nat) : List GoStr :=
  activeFacts.take (if limit = 0 then 50 else limit)

/-- What the fact loop writes into the builder for one fact: nothing for
a whitespace-only fact, else the trimmed fact as a `- …` line. -/
def factLine (f0 : GoStr) : GoStr :=
  if (goTrim f0).isEmpty then [] else gs "- " ++ goTrim f0 ++ gs "\n"

/-- The header line the fact block always starts with. -/
def rememberedFactsHeader : GoStr :=
  gs "以下是用户明确要求我长期记住的事实（高优先级、确定，不要质疑）：\n"

/-- Step 0 of `BuildChatContext`: the evidences it appends — one block
when the query returns at least one row (`b.Len() > 0` always holds,
the header is written first), none otherwise. -/
def rememberedFactEvidences (facts : List GoStr) : List MemoryEvidence :=
  if facts.isEmpty then []
  else [⟨gs "assistant", gs "remembered_fact",
    rememberedFactsHeader ++ (facts.map factLine).flatten, 1000⟩]

/-- The evidence list `BuildChatContext` assembles before handing it to
`resolvePromptBlocks`: step 0 with `loadActiveUserFacts(db, 50)`, then
the step 1–3 evidences in order. -/
def buildChatEvidences (activeFacts : List GoStr)
    (dailyEv searchEv recentEv : List MemoryEvidence) : List MemoryEvidence :=
  rememberedFactEvidences (loadActiveUserFacts activeFacts 50) ++
    (dailyEv ++ searchEv ++ recentEv)

theorem isPrefixOf_append_self (sub post : GoStr) :
    sub.isPrefixOf (sub ++ post) = true := by
  induction sub with
  | nil => simp [List.isPrefixOf]
  | cons a t ih => simp [List.isPrefixOf, ih]

theorem goContains_infix (sub pre post : GoStr) :
    goContains (pre ++ sub ++ post) sub = true := by
  induction pre with
  | nil =>
    have hpre : sub.isPrefixOf (sub ++ post) = true := isPrefixOf_append_self sub post
    simp only [List.nil_append]
    unfold goContains subAt
    rw [if_pos hpre]
    rfl
  | cons c pre ih =>
    show goContains (c :: (pre ++ sub ++ post)) sub = true
    unfold goContains subAt
    split_ifs with h
    · rfl
    · unfold goContains at ih
      simpa [Option.isSome_map] using ih

theorem goContains_at (s pre sub post : GoStr) (h : s = pre ++ sub ++ post) :
    goContains s sub = true := h ▸ goContains_infix sub pre post

set_option maxRecDepth 4000 in
/-- C5, counterexample.  With 51 active facts — at most 200, as the claim
allows — the 51st (`f50`) survives none of the gathered evidences: the
fact query runs with limit 50, not 200, so its `- f50` line is absent
from every evidence block. -/
theorem C5_fact_51_dropped_counterexample :
    ((List.range 51).map (fun i => 'f' :: Nat.toDigits 10 i)).length ≤ 200 ∧
      gs "f50" ∈ (List.range 51).map (fun i => 'f' :: Nat.toDigits 10 i) ∧
      goTrim (gs "f50") ≠ [] ∧
      ∀ e ∈ buildChatEvidences
          ((List.range 51).map (fun i => 'f' :: Nat.toDigits 10 i)) [] [] [],
        goContains e.content (gs "- " ++ goTrim (gs "f50") ++ gs "\n") = false := by
  decide

/-- C5 (amended): `BuildChatContext` gathers up to **50** active user
facts (`loadActiveUserFacts(db, 50)`), and for every state with at most
50 active facts all of them are joined into the single `remembered_fact`
evidence block, priority 1000, role `assistant`, placed first. -/
theorem C5_up_to_50_facts_amended (activeFacts : List GoStr)
    (dailyEv searchEv recentEv : List MemoryEvidence)
    (hn : activeFacts ≠ []) (hlen : activeFacts.length ≤ 50)
    (hsrc : ∀ e2 ∈ dailyEv ++ searchEv ++ recentEv,
      ¬ e2.source = gs "remembered_fact") :
    ∃ e,
      buildChatEvidences activeFacts dailyEv searchEv recentEv =
          e :: (dailyEv ++ searchEv ++ recentEv) ∧
        e.source = gs "remembered_fact" ∧ e.priority = 1000 ∧
        e.role = gs "assistant" ∧
        (∀ f ∈ activeFacts, goTrim f ≠ [] →
          goContains e.content (gs "- " ++ goTrim f ++ gs "\n") = true) ∧
        ∀ e2 ∈ buildChatEvidences activeFacts dailyEv searchEv recentEv,
          e2.source = gs "remembered_fact" → e2 = e := by
  have htake : loadActiveUserFacts activeFacts 50 = activeFacts := by
    unfold loadActiveUserFacts
    rw [if_neg (by decide)]
    exact List.take_of_length_le hlen
  have hremember : rememberedFactEvidences activeFacts =
      [⟨gs "assistant", gs "remembered_fact",
        rememberedFactsHeader ++ (activeFacts.map factLine).flatten, 1000⟩] := by
    unfold rememberedFactEvidences
    rw [if_neg (by simpa [List.isEmpty_iff] using hn)]
  have heq : buildChatEvidences activeFacts dailyEv searchEv recentEv =
      (⟨gs "assistant", gs "remembered_fact",
        rememberedFactsHeader ++ (activeFacts.map factLine).flatten, 1000⟩ :
          MemoryEvidence) :: (dailyEv ++ searchEv ++ recentEv) := by
    unfold buildChatEvidences
    rw [htake, hremember]
    rfl
  refine ⟨_, heq, rfl, rfl, rfl, ?_, ?_⟩
  · intro f hf htrim
    obtain ⟨l1, l2, rfl⟩ := List.append_of_mem hf
    have hline : factLine f = gs "- " ++ goTrim f ++ gs "\n" := by
      unfold factLine
      rw [if_neg (by simpa [List.isEmpty_iff] using htrim)]
    rw [← hline]
    refine goContains_at _ (rememberedFactsHeader ++ (l1.map factLine).flatten)
      _ ((l2.map factLine).flatten) ?_
    show rememberedFactsHeader ++ (((l1 ++ f :: l2).map factLine)).flatten = _
    simp [List.map_append, List.flatten_append, List.append_assoc]
  · intro e2 he2 hs2
    rw [heq] at he2
    rcases List.mem_cons.mp he2 with h | h
    · exact h
    · exact absurd hs2 (hsrc e2 h)

/-- Witness for the amended C5: one active fact, no other evidences. -/
theorem C5_up_to_50_facts_amended_witness :
    ∃ e,
      buildChatEvidences [gs "我喜欢蓝色"] [] [] [] = e :: ([] ++ [] ++ []) ∧
        e.source = gs "remembered_fact" ∧ e.priority = 1000 ∧
        e.role = gs "assistant" ∧
        (∀ f ∈ [gs "我喜欢蓝色"], goTrim f ≠ [] →
          goContains e.content (gs "- " ++ goTrim f ++ gs "\n") = true) ∧
        ∀ e2 ∈ buildChatEvidences [gs "我喜欢蓝色"] [] [] [],
          e2.source = gs "remembered_fact" → e2 = e :=
  C5_up_to_50_facts_amended [gs "我喜欢蓝色"] [] [] []
    (by decide) (by decide) (by simp)

/-! ### C8: splitJSONLIntoChunks and ensureDaily's chunk plan
(src/unnamed/part_011)

Byte counts equal scalar counts on the ASCII JSONL logs this path
handles; `List.length` stands for Go's byte length.  Which LLM calls
`ensureDaily` makes is a pure function of the chunk list; the prompts,
JSON validation and fact ingestion that follow are outside the claim. -/

/-- The per-line cleanup `strings.TrimRight(line, "\x5cr\x5cn")`. -/
def cleanLine (l : GoStr) : GoStr := goTrimRightCut (gs "\r\n") l

/-- What one iteration of the chunk loop contributes to the total
output: nothing for a blank line, else the cleaned line plus `\n`. -/
def lineEmit (l : GoStr) : GoStr :=
  if (goTrim (cleanLine l)).isEmpty then [] else cleanLine l ++ ['\n']

/-- One iteration of `splitJSONLIntoChunks`' loop over `(chunks, b)`:
skip blank lines; pre-flush when the line would overflow a nonempty
buffer; write the line; post-flush when the buffer alone overflows. -/
def splitStep (maxBytes : Nat) (st : List GoStr × GoStr) (line0 : GoStr) :
    List GoStr × GoStr :=
  if (goTrim (cleanLine line0)).isEmpty then st
  else
    let pre := if 0 < st.2.length ∧ maxBytes < st.2.length + (cleanLine line0).length + 1
      then (st.1 ++ [st.2], ([] : GoStr)) else st
    let b2 := pre.2 ++ cleanLine line0 ++ ['\n']
    if maxBytes < b2.length then (pre.1 ++ [b2], ([] : GoStr)) else (pre.1, b2)

/-- `splitJSONLIntoChunks` (part_011). -/
def splitJSONLIntoChunks (raw : GoStr) (maxBytes : Nat) : List GoStr :=
  let st := (splitOnChar '\n' raw).foldl (splitStep maxBytes) ([], [])
  let chunks := if 0 < st.2.length then st.1 ++ [st.2] else st.1
  if chunks.isEmpty then [[]] else chunks

/-- The LLM calls `ensureDaily` makes for the day log: one summary call
per chunk, plus one merge call only in the multi-chunk branch. -/
structure DailyLLMPlan where
  chunkCalls : Nat
  mergeCall : Bool
deriving DecidableEq, Repr

/-- The chunk/merge call plan of `ensureDaily` (part_011). -/
def ensureDailyPlan (raw : GoStr) (maxBytes : Nat) : DailyLLMPlan :=
  if (splitJSONLIntoChunks raw maxBytes).length = 1 then ⟨1, false⟩
  else ⟨(splitJSONLIntoChunks raw maxBytes).length, true⟩

/-- A chunk that is a whole number of `\n`-terminated lines. -/
def lineAligned (c : GoStr) : Prop :=
  ∃ ls : List GoStr, c = (ls.map (fun l => l ++ ['\n'])).flatten

theorem lineAligned_nil : lineAligned [] := ⟨[], rfl⟩

theorem lineAligned_append_line (b l : GoStr) (hb : lineAligned b) :
    lineAligned (b ++ l ++ ['\n']) := by
  obtain ⟨ls, rfl⟩ := hb
  exact ⟨ls ++ [l], by simp⟩

theorem foldl_splitStep_flatten (maxBytes : Nat) (lines : List GoStr) :
    ∀ chunks b,
      ((lines.foldl (splitStep maxBytes) (chunks, b)).1).flatten ++
          (lines.foldl (splitStep maxBytes) (chunks, b)).2 =
        chunks.flatten ++ b ++ (lines.map lineEmit).flatten := by
  induction lines with
  | nil => intro chunks b; simp
  | cons l ls ih =>
    intro chunks b
    simp only [List.foldl_cons, List.map_cons, List.flatten_cons]
    by_cases h0 : (goTrim (cleanLine l)).isEmpty = true
    · rw [show splitStep maxBytes (chunks, b) l = (chunks, b) from by
        simp [splitStep, h0]]
      rw [ih]
      simp [lineEmit, h0, List.append_assoc]
    · by_cases h1 : 0 < b.length ∧ maxBytes < b.length + (cleanLine l).length + 1
      · by_cases h2 : maxBytes < (cleanLine l).length + 1
        · rw [show splitStep maxBytes (chunks, b) l =
              ((chunks ++ [b]) ++ [cleanLine l ++ ['\n']], ([] : GoStr)) from by
            simp [splitStep, h0, h1, h2]]
          rw [ih]
          simp [lineEmit, h0, List.flatten_append, List.append_assoc]
        · rw [show splitStep maxBytes (chunks, b) l =
              (chunks ++ [b], cleanLine l ++ ['\n']) from by
            simp [splitStep, h0, h1, h2]]
          rw [ih]
          simp [lineEmit, h0, List.flatten_append, List.append_assoc]
      · by_cases h2 : maxBytes < b.length + ((cleanLine l).length + 1)
        · rw [show splitStep maxBytes (chunks, b) l =
              (chunks ++ [b ++ cleanLine l ++ ['\n']], ([] : GoStr)) from by
            simp [splitStep, h0, h1, h2]]
          rw [ih]
          simp [lineEmit, h0, List.flatten_append, List.append_assoc]
        · rw [show splitStep maxBytes (chunks, b) l =
              (chunks, b ++ cleanLine l ++ ['\n']) from by
            simp [splitStep, h0, h1, h2]]
          rw [ih]
          simp [lineEmit, h0, List.append_assoc]

theorem foldl_splitStep_aligned (maxBytes : Nat) (lines : List GoStr) :
    ∀ chunks b, (∀ c ∈ chunks, lineAligned c) → lineAligned b →
      (∀ c ∈ (lines.foldl (splitStep maxBytes) (chunks, b)).1, lineAligned c) ∧
        lineAligned (lines.foldl (splitStep maxBytes) (chunks, b)).2 := by
  induction lines with
  | nil => intro chunks b hc hb; exact ⟨hc, hb⟩
  | cons l ls ih =>
    intro chunks b hc hb
    simp only [List.foldl_cons]
    by_cases h0 : (goTrim (cleanLine l)).isEmpty = true
    · rw [show splitStep maxBytes (chunks, b) l = (chunks, b) from by
        simp [splitStep, h0]]
      exact ih chunks b hc hb
    · by_cases h1 : 0 < b.length ∧ maxBytes < b.length + (cleanLine l).length + 1
      · by_cases h2 : maxBytes < (cleanLine l).length + 1
        · rw [show splitStep maxBytes (chunks, b) l =
              ((chunks ++ [b]) ++ [cleanLine l ++ ['\n']], ([] : GoStr)) from by
            simp [splitStep, h0, h1, h2]]
          refine ih _ _ ?_ lineAligned_nil
          intro c hcm
          rcases List.mem_append.mp hcm with hcm2 | hcm2
          · rcases List.mem_append.mp hcm2 with hcm3 | hcm3
            · exact hc c hcm3
            · rw [List.mem_singleton.mp hcm3]; exact hb
          · rw [List.mem_singleton.mp hcm2]
            simpa using lineAligned_append_line [] (cleanLine l) lineAligned_nil
        · rw [show splitStep maxBytes (chunks, b) l =
              (chunks ++ [b], cleanLine l ++ ['\n']) from by
            simp [splitStep, h0, h1, h2]]
          refine ih _ _ ?_ ?_
          · intro c hcm
            rcases List.mem_append.mp hcm with hcm2 | hcm2
            · exact hc c hcm2
            · rw [List.mem_singleton.mp hcm2]; exact hb
          · simpa using lineAligned_append_line [] (cleanLine l) lineAligned_nil
      · by_cases h2 : maxBytes < b.length + ((cleanLine l).length + 1)
        · rw [show splitStep maxBytes (chunks, b) l =
              (chunks ++ [b ++ cleanLine l ++ ['\n']], ([] : GoStr)) from by
            simp [splitStep, h0, h1, h2]]
          refine ih _ _ ?_ lineAligned_nil
          intro c hcm
          rcases List.mem_append.mp hcm with hcm2 | hcm2
          · exact hc c hcm2
          · rw [List.mem_singleton.mp hcm2]
            exact lineAligned_append_line b (cleanLine l) hb
        · rw [show splitStep maxBytes (chunks, b) l =
              (chunks, b ++ cleanLine l ++ ['\n']) from by
            simp [splitStep, h0, h1, h2]]
          exact ih _ _ hc (lineAligned_append_line b (cleanLine l) hb)

theorem splitJSONL_ne_nil (raw : GoStr) (maxBytes : Nat) :
    splitJSONLIntoChunks raw maxBytes ≠ [] := by
  simp only [splitJSONLIntoChunks]
  split_ifs with h1 h2 h3
  · simp
  · simp
  · simp
  · intro he
    exact h3 (by rw [he]; rfl)

theorem splitJSONL_flatten (raw : GoStr) (maxBytes : Nat) :
    (splitJSONLIntoChunks raw maxBytes).flatten =
      ((splitOnChar '\n' raw).map lineEmit).flatten := by
  have hinv := foldl_splitStep_flatten maxBytes (splitOnChar '\n' raw) [] []
  simp only [List.flatten_nil, List.nil_append] at hinv
  simp only [splitJSONLIntoChunks]
  by_cases h1 : 0 < ((splitOnChar '\n' raw).foldl (splitStep maxBytes) ([], [])).2.length
  · rw [if_pos h1, if_neg (by simp)]
    rw [List.flatten_append]
    simpa using hinv
  · rw [if_neg h1]
    have hb : ((splitOnChar '\n' raw).foldl (splitStep maxBytes) ([], [])).2 = [] :=
      List.eq_nil_of_length_eq_zero (Nat.eq_zero_of_not_pos h1)
    rw [hb, List.append_nil] at hinv
    by_cases h2 : ((splitOnChar '\n' raw).foldl (splitStep maxBytes) ([], [])).1.isEmpty
    · rw [if_pos h2]
      rw [List.isEmpty_iff.mp h2] at hinv
      simpa using hinv
    · rw [if_neg h2]
      exact hinv

theorem splitJSONL_aligned (raw : GoStr) (maxBytes : Nat) :
    ∀ c ∈ splitJSONLIntoChunks raw maxBytes, lineAligned c := by
  have hinv := foldl_splitStep_aligned maxBytes (splitOnChar '\n' raw) [] []
    (by intro c hcm; cases hcm) lineAligned_nil
  simp only [splitJSONLIntoChunks]
  split_ifs with h1 h2 h3
  · intro c hcm
    rw [List.mem_singleton.mp hcm]
    exact lineAligned_nil
  · intro c hcm
    rcases List.mem_append.mp hcm with hcm2 | hcm2
    · exact hinv.1 c hcm2
    · rw [List.mem_singleton.mp hcm2]
      exact hinv.2
  · intro c hcm
    rw [List.mem_singleton.mp hcm]
    exact lineAligned_nil
  · exact hinv.1

/-- C8, counterexample.  Three 7-byte lines with a 12-byte budget: the
raw log is 24 bytes, `ceil(24/12) = 2`, yet three chunks are emitted
(each flush happens at a line boundary, so chunks hold 8 bytes, not 12).
And a single 20-byte line with a 10-byte budget exceeds the budget but
yields one chunk, so no merge call is made. -/
theorem C8_chunk_count_counterexample :
    (gs "aaaaaaa\nbbbbbbb\nccccccc\n").length = 24 ∧
      (splitJSONLIntoChunks (gs "aaaaaaa\nbbbbbbb\nccccccc\n") 12).length = 3 ∧
      (splitJSONLIntoChunks (gs "aaaaaaa\nbbbbbbb\nccccccc\n") 12).length ≠
        (24 + 12 - 1) / 12 ∧
      (gs "aaaaaaaaaaaaaaaaaaaa").length = 20 ∧
      (splitJSONLIntoChunks (gs "aaaaaaaaaaaaaaaaaaaa") 10).length = 1 ∧
      (ensureDailyPlan (gs "aaaaaaaaaaaaaaaaaaaa") 10).mergeCall = false := by
  decide

/-- C8 (amended): `splitJSONLIntoChunks` emits at least one chunk; the
chunks concatenate to exactly the cleaned nonblank lines of the log,
each `\n`-terminated, and every chunk is itself a whole number of such
lines (no line is split mid-item); `ensureDaily` makes one summary call
per chunk and a final merge call exactly when more than one chunk was
emitted.  The chunk count is *not* `ceil(bytes/budget)` in general. -/
theorem C8_chunking_amended (raw : GoStr) (maxBytes : Nat) :
    splitJSONLIntoChunks raw maxBytes ≠ [] ∧
      (splitJSONLIntoChunks raw maxBytes).flatten =
        ((splitOnChar '\n' raw).map lineEmit).flatten ∧
      ((ensureDailyPlan raw maxBytes).mergeCall = true ↔
        1 < (splitJSONLIntoChunks raw maxBytes).length) ∧
      (ensureDailyPlan raw maxBytes).chunkCalls =
        (splitJSONLIntoChunks raw maxBytes).length ∧
      ∀ c ∈ splitJSONLIntoChunks raw maxBytes,
        ∃ ls : List GoStr, c = (ls.map (fun l => l ++ ['\n'])).flatten := by
  have hne := splitJSONL_ne_nil raw maxBytes
  have hpos : 0 < (splitJSONLIntoChunks raw maxBytes).length :=
    List.length_pos.mpr hne
  refine ⟨hne, splitJSONL_flatten raw maxBytes, ?_, ?_, splitJSONL_aligned raw maxBytes⟩
  · by_cases h : (splitJSONLIntoChunks raw maxBytes).length = 1
    · simp [ensureDailyPlan, h]
    · simp only [ensureDailyPlan]
      rw [if_neg h]
      constructor
      · intro _; omega
      · intro _; rfl
  · by_cases h : (splitJSONLIntoChunks raw maxBytes).length = 1
    · simp [ensureDailyPlan, h]
    · simp [ensureDailyPlan, h]

/-- Witness for the amended C8: its line-alignment clause applied to the
first chunk of the three-line log. -/
theorem C8_chunking_amended_witness :
    ∃ ls : List GoStr, gs "aaaaaaa\n" = (ls.map (fun l => l ++ ['\n'])).flatten :=
  (C8_chunking_amended (gs "aaaaaaa\nbbbbbbb\nccccccc\n") 12).2.2.2.2
    (gs "aaaaaaa\n") (by decide)

/-! ### C9: sanitizeAssistantText (src/unnamed/part_008) -/

/-- The memory-claim phrases stripped (once) from the head of the reply. -/
def forbiddenClaimPres : List GoStr :=
  [gs "已记住：", gs "已记住:", gs "已记录：", gs "已记录:", gs "我已记住：",
   gs "我已记住:", gs "我会记住：", gs "我会记住:", gs "我已经记住：", gs "我已经记住:"]

/-- The internal ack markers of the line filter. -/
def internalMarkerPres : List GoStr :=
  [gs "[ok]", gs "[noop]", gs "[conflict]", gs "[error]"]

/-- The facts-panel keywords of the line filter. -/
def factsPanelKeywords : List GoStr :=
  [gs "FACTS", gs "待确认事实", gs "长期事实", gs "PENDING", gs "CONFLICTS"]

/-- `removeOne` inside `stripNoisyParentheticals`: drop the first
`op…cl` segment when it holds an identity-contract keyword; `false`
when the first such segment is clean (later ones are not examined). -/
def removeOneNoisy (op cl s : GoStr) : GoStr × Bool :=
  match subAt s op with
  | none => (s, false)
  | some i =>
    match subAt (s.drop (i + op.length)) cl with
    | none => (s, false)
    | some j =>
      if goContains ((s.drop (i + op.length)).take j) (gs "身份契约") ||
          goContains ((s.drop (i + op.length)).take j) (gs "指代规则") then
        (goTrim (s.take i ++ (s.drop (i + op.length)).drop (j + cl.length)), true)
      else (s, false)

/-- The 8-iteration removal loop of `stripNoisyParentheticals`:
full-width pair first, half-width second, stop when neither fires. -/
def stripNoisyAux : Nat → GoStr → GoStr
  | 0, s => s
  | n + 1, s =>
    match removeOneNoisy (gs "（") (gs "）") s with
    | (out, true) => stripNoisyAux n out
    | (_, false) =>
      match removeOneNoisy (gs "(") (gs ")") s with
      | (out, true) => stripNoisyAux n out
      | (_, false) => s

/-- `stripNoisyParentheticals` (part_008). -/
def stripNoisyParentheticals (s : GoStr) : GoStr :=
  goTrim (stripNoisyAux 8 s)

/-- Step 1 of `sanitizeAssistantText`: strip the first matching
memory-claim phrase from the trimmed reply — once, then `break`. -/
def stripLeadClaimMarker (s : GoStr) : GoStr :=
  match forbiddenClaimPres.find? (fun p => goStartsWith (goTrim s) p) with
  | some p => goTrim (goDropPre p (goTrim s))
  | none => s

/-- Step 2: parentheticals are stripped only when an identity-contract
keyword occurs somewhere in the text. -/
def noisyStripStage (s : GoStr) : GoStr :=
  if goContains s (gs "身份契约") || goContains s (gs "指代规则") then
    stripNoisyParentheticals s
  else s

/-- A trimmed line the filter drops: an internal ack marker at the
start plus a facts-panel keyword somewhere. -/
def isMarkerKeywordLine (t : GoStr) : Bool :=
  internalMarkerPres.any (fun p => goStartsWith t p) &&
    factsPanelKeywords.any (fun k => goContains t k)

/-- Step 3: the line filter; kept lines are kept verbatim. -/
def sanitizeLineFilter (lns : List GoStr) : List GoStr :=
  lns.filter (fun ln => (goTrim ln).isEmpty || !isMarkerKeywordLine (goTrim ln))

/-- `sanitizeAssistantText` (part_008). -/
def sanitizeAssistantText (s : GoStr) : GoStr :=
  if s.isEmpty then s
  else
    goTrim (goJoin (gs "\n") (sanitizeLineFilter
      (splitOnChar '\n' (noisyStripStage (stripLeadClaimMarker s)))))

/-! String lemmas feeding the C9 proofs. -/

theorem splitOnChar_ne_nil (c : Char) (s : GoStr) : splitOnChar c s ≠ [] := by
  cases s with
  | nil => simp [splitOnChar]
  | cons a t =>
    simp only [splitOnChar]
    split
    · simp
    · split <;> simp

theorem not_mem_of_mem_splitOnChar (c : Char) (s x : GoStr)
    (hx : x ∈ splitOnChar c s) : c ∉ x := by
  induction s generalizing x with
  | nil =>
    simp [splitOnChar] at hx
    subst hx
    simp
  | cons a t ih =>
    simp only [splitOnChar] at hx
    by_cases hac : (a == c) = true
    · rw [if_pos hac] at hx
      rcases List.mem_cons.mp hx with rfl | hx2
      · simp
      · exact ih x hx2
    · rw [if_neg hac] at hx
      cases ht : splitOnChar c t with
      | nil => exact absurd ht (splitOnChar_ne_nil c t)
      | cons h r =>
        rw [ht] at hx
        rcases List.mem_cons.mp hx with hxe | hx2
        · subst hxe
          intro hmem
          rcases List.mem_cons.mp hmem with hca | hmem2
          · exact hac (by rw [hca]; simp)
          · exact ih h (by rw [ht]; exact List.mem_cons_self h r) hmem2
        · exact ih x (by rw [ht]; exact List.mem_cons_of_mem h hx2)

theorem mem_of_mem_splitOnChar (c : Char) (s x : GoStr)
    (hx : x ∈ splitOnChar c s) : ∀ a ∈ x, a ∈ s := by
  induction s generalizing x with
  | nil =>
    simp [splitOnChar] at hx
    subst hx
    simp
  | cons b t ih =>
    simp only [splitOnChar] at hx
    by_cases hac : (b == c) = true
    · rw [if_pos hac] at hx
      rcases List.mem_cons.mp hx with rfl | hx2
      · simp
      · intro a ha
        exact List.mem_cons_of_mem b (ih x hx2 a ha)
    · rw [if_neg hac] at hx
      cases ht : splitOnChar c t with
      | nil => exact absurd ht (splitOnChar_ne_nil c t)
      | cons h r =>
        rw [ht] at hx
        rcases List.mem_cons.mp hx with hxe | hx2
        · subst hxe
          intro a ha
          rcases List.mem_cons.mp ha with hab | ha2
          · rw [hab]; exact List.mem_cons_self b t
          · exact List.mem_cons_of_mem b
              (ih h (by rw [ht]; exact List.mem_cons_self h r) a ha2)
        · intro a ha
          exact List.mem_cons_of_mem b
            (ih x (by rw [ht]; exact List.mem_cons_of_mem h hx2) a ha)

theorem goTrim_nil_of_all_space (x : GoStr)
    (h : ∀ a ∈ x, goIsSpace a = true) : goTrim x = [] := by
  unfold goTrim
  rw [List.dropWhile_eq_nil_iff.mpr h]
  rfl

theorem dropWhile_append_all (p : Char → Bool) (w x : GoStr)
    (hw : ∀ a ∈ w, p a = true) :
    (w ++ x).dropWhile p = x.dropWhile p := by
  induction w with
  | nil => rfl
  | cons a t ih =>
    have ha := hw a (List.mem_cons_self a t)
    simp only [List.cons_append, List.dropWhile_cons, ha, if_true]
    exact ih (fun b hb => hw b (List.mem_cons_of_mem a hb))

theorem dropWhile_append_of_ne (p : Char → Bool) (x w : GoStr)
    (hx : x.dropWhile p ≠ []) :
    (x ++ w).dropWhile p = x.dropWhile p ++ w := by
  induction x with
  | nil => exact absurd rfl hx
  | cons a t ih =>
    by_cases ha : p a = true
    · simp only [List.cons_append, List.dropWhile_cons, ha, if_true]
      exact ih (by simpa [List.dropWhile_cons, ha] using hx)
    · simp only [List.cons_append, List.dropWhile_cons, ha, if_false]
      simp [List.dropWhile_cons, ha]

theorem trimRightP_append_all (p : Char → Bool) (w x : GoStr)
    (hw : ∀ a ∈ w, p a = true) :
    trimRightP p (x ++ w) = trimRightP p x := by
  unfold trimRightP
  rw [List.reverse_append]
  rw [dropWhile_append_all p w.reverse x.reverse
    (by intro a ha; exact hw a (List.mem_reverse.mp ha))]

theorem goTrim_append_space (x w : GoStr)
    (hw : ∀ a ∈ w, goIsSpace a = true) : goTrim (x ++ w) = goTrim x := by
  unfold goTrim
  by_cases hx : x.dropWhile goIsSpace = []
  · have hxall := List.dropWhile_eq_nil_iff.mp hx
    rw [List.dropWhile_eq_nil_iff.mpr (by
      intro a ha
      rcases List.mem_append.mp ha with h | h
      · exact hxall a h
      · exact hw a h), hx]
  · rw [dropWhile_append_of_ne goIsSpace x w hx]
    exact trimRightP_append_all _ w _ hw

theorem goTrim_space_append (w x : GoStr)
    (hw : ∀ a ∈ w, goIsSpace a = true) : goTrim (w ++ x) = goTrim x := by
  unfold goTrim
  rw [dropWhile_append_all goIsSpace w x hw]

theorem mem_takeWhile_pred (p : Char → Bool) (s : GoStr) :
    ∀ a ∈ s.takeWhile p, p a = true := by
  induction s with
  | nil => simp
  | cons b t ih =>
    by_cases hb : p b = true
    · simp only [List.takeWhile_cons, hb, if_true]
      intro a ha
      rcases List.mem_cons.mp ha with hab | ha2
      · rw [hab]; exact hb
      · exact ih a ha2
    · simp [List.takeWhile_cons, hb]

theorem trimRight_decomp (p : Char → Bool) (s : GoStr) :
    ∃ w, s = trimRightP p s ++ w ∧ ∀ a ∈ w, p a = true := by
  refine ⟨(s.reverse.takeWhile p).reverse, ?_, ?_⟩
  · have hsplit : s.reverse.takeWhile p ++ s.reverse.dropWhile p = s.reverse :=
      List.takeWhile_append_dropWhile p s.reverse
    unfold trimRightP
    conv_lhs => rw [← s.reverse_reverse, ← hsplit]
    rw [List.reverse_append]
  · intro a ha
    exact mem_takeWhile_pred p s.reverse a (List.mem_reverse.mp ha)

theorem splitOnChar_append (c : Char) (u : GoStr) :
    ∀ (w : GoStr) (ls : List GoStr) (lst h : GoStr) (r : List GoStr),
      splitOnChar c u = ls ++ [lst] → splitOnChar c w = h :: r →
      splitOnChar c (u ++ w) = ls ++ (lst ++ h) :: r := by
  induction u with
  | nil =>
    intro w ls lst h r hu hw
    have hls : ls = [] ∧ lst = [] := by
      cases ls with
      | nil =>
        refine ⟨rfl, ?_⟩
        have : ([[]] : List GoStr) = [lst] := hu
        exact (List.cons.inj this).1.symm
      | cons z ls2 =>
        have : ([[]] : List GoStr) = z :: (ls2 ++ [lst]) := hu
        obtain ⟨-, h2⟩ := List.cons.inj this
        exact absurd h2.symm (by simp)
    obtain ⟨rfl, rfl⟩ := hls
    simpa using hw
  | cons a t ih =>
    intro w ls lst h r hu hw
    by_cases hac : (a == c) = true
    · rw [show splitOnChar c (a :: t) = [] :: splitOnChar c t from by
        simp [splitOnChar, hac]] at hu
      cases ls with
      | nil =>
        have := (List.cons.inj hu).2
        exact absurd this (splitOnChar_ne_nil c t)
      | cons z ls2 =>
        rw [List.cons_append] at hu
        obtain ⟨hz, ht⟩ := List.cons.inj hu
        have hrec := ih w ls2 lst h r ht hw
        show splitOnChar c (a :: (t ++ w)) = (z :: ls2) ++ (lst ++ h) :: r
        rw [show splitOnChar c (a :: (t ++ w)) = [] :: splitOnChar c (t ++ w) from by
          simp [splitOnChar, hac]]
        rw [hrec, List.cons_append, hz]
    · cases ht : splitOnChar c t with
      | nil => exact absurd ht (splitOnChar_ne_nil c t)
      | cons h2 r2 =>
        rw [show splitOnChar c (a :: t) = (a :: h2) :: r2 from by
          simp [splitOnChar, hac, ht]] at hu
        cases ls with
        | nil =>
          obtain ⟨hl, hr⟩ := List.cons.inj hu
          have htt : splitOnChar c t = [] ++ [h2] := by rw [ht, hr]; simp
          have hrec := ih w [] h2 h r htt hw
          show splitOnChar c (a :: (t ++ w)) = [] ++ (lst ++ h) :: r
          rw [show splitOnChar c (a :: (t ++ w)) =
              (a :: (h2 ++ h)) :: r from by
            simp [splitOnChar, hac]
            rw [show splitOnChar c (t ++ w) = (h2 ++ h) :: r from hrec]]
          rw [← hl]
          rfl
        | cons z ls2 =>
          rw [List.cons_append] at hu
          obtain ⟨hz, hr⟩ := List.cons.inj hu
          have htt : splitOnChar c t = (h2 :: ls2) ++ [lst] := by
            rw [ht, hr]
            rfl
          have hrec := ih w (h2 :: ls2) lst h r htt hw
          show splitOnChar c (a :: (t ++ w)) = (z :: ls2) ++ (lst ++ h) :: r
          rw [show splitOnChar c (a :: (t ++ w)) =
              (a :: h2) :: (ls2 ++ (lst ++ h) :: r) from by
            simp [splitOnChar, hac]
            rw [show splitOnChar c (t ++ w) = h2 :: (ls2 ++ (lst ++ h) :: r) from hrec]]
          rw [← hz]
          rfl

/-- Every line of a trimmed string is, up to trimming, a line of the
original string. -/
theorem lines_goTrim (s : GoStr) :
    ∀ ln ∈ splitOnChar '\n' (goTrim s),
      ∃ ln0 ∈ splitOnChar '\n' s, goTrim ln = goTrim ln0 := by
  obtain ⟨wR, hR, hwR⟩ := trimRight_decomp goIsSpace (s.dropWhile goIsSpace)
  have hdef : goTrim s = trimRightP goIsSpace (s.dropWhile goIsSpace) := rfl
  have hs : s = s.takeWhile goIsSpace ++ (goTrim s ++ wR) := by
    have h1 : s.takeWhile goIsSpace ++ s.dropWhile goIsSpace = s :=
      List.takeWhile_append_dropWhile goIsSpace s
    rw [hdef, ← hR, h1]
  intro ln hln
  obtain ⟨ls, lst, hdecomp⟩ : ∃ ls lst, splitOnChar '\n' (goTrim s) = ls ++ [lst] := by
    rcases List.eq_nil_or_concat (splitOnChar '\n' (goTrim s)) with h | ⟨L, b, h⟩
    · exact absurd h (splitOnChar_ne_nil _ _)
    · exact ⟨L, b, by simpa [List.concat_eq_append] using h⟩
  cases hw : splitOnChar '\n' wR with
  | nil => exact absurd hw (splitOnChar_ne_nil _ _)
  | cons h0 r0 =>
    have hstep1 := splitOnChar_append '\n' (goTrim s) wR ls lst h0 r0 hdecomp hw
    have hln1 : ∃ ln1 ∈ splitOnChar '\n' (goTrim s ++ wR), goTrim ln = goTrim ln1 := by
      rw [hdecomp] at hln
      rcases List.mem_append.mp hln with hmem | hmem
      · exact ⟨ln, by rw [hstep1]; exact List.mem_append_left _ hmem, rfl⟩
      · rw [List.mem_singleton.mp hmem]
        refine ⟨lst ++ h0,
          by rw [hstep1]; exact List.mem_append_right _ (List.mem_cons_self _ _), ?_⟩
        have hh0 : ∀ a ∈ h0, goIsSpace a = true := by
          intro a ha
          exact hwR a (mem_of_mem_splitOnChar '\n' wR h0
            (by rw [hw]; exact List.mem_cons_self _ _) a ha)
        exact (goTrim_append_space lst h0 hh0).symm
    obtain ⟨ln1, hln1m, hln1e⟩ := hln1
    obtain ⟨ls2, lst2, hdw⟩ :
        ∃ ls2 lst2, splitOnChar '\n' (s.takeWhile goIsSpace) = ls2 ++ [lst2] := by
      rcases List.eq_nil_or_concat (splitOnChar '\n' (s.takeWhile goIsSpace)) with h | ⟨L, b, h⟩
      · exact absurd h (splitOnChar_ne_nil _ _)
      · exact ⟨L, b, by simpa [List.concat_eq_append] using h⟩
    cases hu : splitOnChar '\n' (goTrim s ++ wR) with
    | nil => exact absurd hu (splitOnChar_ne_nil _ _)
    | cons hu0 ru0 =>
      have hstep2 := splitOnChar_append '\n' (s.takeWhile goIsSpace) (goTrim s ++ wR)
        ls2 lst2 hu0 ru0 hdw hu
      rw [hu] at hln1m
      have hlst2 : ∀ a ∈ lst2, goIsSpace a = true := by
        intro a ha
        exact mem_takeWhile_pred goIsSpace s a
          (mem_of_mem_splitOnChar '\n' (s.takeWhile goIsSpace) lst2
            (by rw [hdw]; exact List.mem_append_right _ (List.mem_singleton_self _)) a ha)
      rcases List.mem_cons.mp hln1m with hmem | hmem
      · refine ⟨lst2 ++ hu0, ?_, ?_⟩
        · rw [hs, hstep2]
          exact List.mem_append_right _ (List.mem_cons_self _ _)
        · rw [hln1e, hmem]
          exact (goTrim_space_append lst2 hu0 hlst2).symm
      · refine ⟨ln1, ?_, hln1e⟩
        rw [hs, hstep2]
        exact List.mem_append_right _ (List.mem_cons_of_mem _ hmem)

theorem splitOnChar_no_sep (c : Char) (x : GoStr) (hx : c ∉ x) :
    splitOnChar c x = [x] := by
  induction x with
  | nil => rfl
  | cons a t ih =>
    have hac : ¬((a == c) = true) := by
      intro hbeq
      exact hx (by rw [beq_iff_eq.mp hbeq]; exact List.mem_cons_self c t)
    simp only [splitOnChar]
    rw [if_neg hac]
    rw [ih (fun hmem => hx (List.mem_cons_of_mem a hmem))]

theorem splitOnChar_append_sep (c : Char) (x rest : GoStr) (hx : c ∉ x) :
    splitOnChar c (x ++ c :: rest) = x :: splitOnChar c rest := by
  induction x with
  | nil =>
    show splitOnChar c (c :: rest) = [] :: splitOnChar c rest
    simp [splitOnChar]
  | cons a t ih =>
    have hac : ¬((a == c) = true) := by
      intro hbeq
      exact hx (by rw [beq_iff_eq.mp hbeq]; exact List.mem_cons_self c t)
    show splitOnChar c (a :: (t ++ c :: rest)) = (a :: t) :: splitOnChar c rest
    simp only [splitOnChar]
    rw [if_neg hac]
    rw [ih (fun hmem => hx (List.mem_cons_of_mem a hmem))]

theorem splitOnChar_intercalate (c : Char) (xs : List GoStr)
    (hne : xs ≠ []) (hx : ∀ x ∈ xs, c ∉ x) :
    splitOnChar c (List.intercalate [c] xs) = xs := by
  induction xs with
  | nil => exact absurd rfl hne
  | cons x ys ih =>
    cases ys with
    | nil =>
      rw [show List.intercalate [c] [x] = x from by
        simp [List.intercalate, List.intersperse]]
      exact splitOnChar_no_sep c x (hx x (List.mem_cons_self _ _))
    | cons y r =>
      rw [show List.intercalate [c] (x :: y :: r) =
          x ++ c :: List.intercalate [c] (y :: r) from by
        simp [List.intercalate, List.intersperse]]
      rw [splitOnChar_append_sep c x _ (hx x (List.mem_cons_self _ _))]
      rw [ih (by simp) (fun z hz => hx z (List.mem_cons_of_mem x hz))]

theorem nil_isPrefixOf (l : GoStr) : List.isPrefixOf [] l = true := by
  cases l <;> rfl

theorem isPrefixOf_extend (q : GoStr) :
    ∀ (u w : GoStr), q.isPrefixOf u = true → q.isPrefixOf (u ++ w) = true := by
  induction q with
  | nil => intro u w _; exact nil_isPrefixOf _
  | cons b q2 ih =>
    intro u w hpre
    cases u with
    | nil => simp [List.isPrefixOf] at hpre
    | cons e u2 =>
      simp only [List.isPrefixOf, Bool.and_eq_true] at hpre
      simp only [List.cons_append, List.isPrefixOf, Bool.and_eq_true]
      exact ⟨hpre.1, ih u2 w hpre.2⟩

theorem isPrefixOf_before_stop (p : Char → Bool) (q : GoStr) :
    ∀ (d rest : GoStr) (c : Char), q.isPrefixOf (d ++ c :: rest) = true →
      (∀ a ∈ q, p a = false) → p c = true → q.isPrefixOf d = true := by
  induction q with
  | nil => intro d rest c _ _ _; exact nil_isPrefixOf _
  | cons b q2 ih =>
    intro d rest c hpre hq hc
    cases d with
    | nil =>
      simp only [List.nil_append, List.isPrefixOf, Bool.and_eq_true] at hpre
      have hbc := beq_iff_eq.mp hpre.1
      have hb := hq b (List.mem_cons_self _ _)
      rw [hbc, hc] at hb
      cases hb
    | cons e d2 =>
      simp only [List.cons_append, List.isPrefixOf, Bool.and_eq_true] at hpre
      simp only [List.isPrefixOf, Bool.and_eq_true]
      exact ⟨hpre.1, ih d2 rest c hpre.2
        (fun a ha => hq a (List.mem_cons_of_mem b ha)) hc⟩

theorem isPrefixOf_drop_suffix (p : Char → Bool) (q : GoStr) :
    ∀ (d w : GoStr), q.isPrefixOf (d ++ w) = true → (∀ a ∈ q, p a = false) →
      (∀ a ∈ w, p a = true) → q.isPrefixOf d = true := by
  induction q with
  | nil => intro d w _ _ _; exact nil_isPrefixOf _
  | cons b q2 ih =>
    intro d w hpre hq hw
    cases d with
    | nil =>
      cases w with
      | nil => simp [List.isPrefixOf] at hpre
      | cons c w2 =>
        simp only [List.nil_append, List.isPrefixOf, Bool.and_eq_true] at hpre
        have hbc := beq_iff_eq.mp hpre.1
        have hb := hq b (List.mem_cons_self _ _)
        rw [hbc, hw c (List.mem_cons_self _ _)] at hb
        cases hb
    | cons e d2 =>
      simp only [List.cons_append, List.isPrefixOf, Bool.and_eq_true] at hpre
      simp only [List.isPrefixOf, Bool.and_eq_true]
      exact ⟨hpre.1, ih d2 w hpre.2
        (fun a ha => hq a (List.mem_cons_of_mem b ha)) hw⟩

/-- The ten forbidden phrases are nonempty and contain no whitespace
(in particular no newline). -/
theorem markerNoSpace :
    ∀ q ∈ forbiddenClaimPres, q ≠ [] ∧ ∀ a ∈ q, goIsSpace a = false := by
  decide

/-- If no line of `xs` trim-starts with `q` (nonempty, whitespace-free),
then the trimmed `\n`-join of `xs` does not start with `q` either. -/
theorem no_marker_head_intercalate (q : GoStr) (qne : q ≠ [])
    (qns : ∀ a ∈ q, goIsSpace a = false) :
    ∀ xs : List GoStr, (∀ ln ∈ xs, goStartsWith (goTrim ln) q = false) →
      goStartsWith (goTrim (List.intercalate ['\n'] xs)) q = false := by
  intro xs
  induction xs with
  | nil =>
    intro _
    cases q with
    | nil => exact absurd rfl qne
    | cons b q2 => rfl
  | cons x ys ih =>
    intro hx
    cases ys with
    | nil =>
      rw [show List.intercalate ['\n'] [x] = x from by
        simp [List.intercalate, List.intersperse]]
      exact hx x (List.mem_cons_self _ _)
    | cons y r =>
      rw [show List.intercalate ['\n'] (x :: y :: r) =
          x ++ '\n' :: List.intercalate ['\n'] (y :: r) from by
        simp [List.intercalate, List.intersperse]]
      by_cases hxall : x.dropWhile goIsSpace = []
      · have hxsp := List.dropWhile_eq_nil_iff.mp hxall
        rw [show x ++ '\n' :: List.intercalate ['\n'] (y :: r) =
            (x ++ ['\n']) ++ List.intercalate ['\n'] (y :: r) from by simp]
        rw [goTrim_space_append (x ++ ['\n']) _ (by
          intro a ha
          rcases List.mem_append.mp ha with h | h
          · exact hxsp a h
          · rw [List.mem_singleton.mp h]; decide)]
        exact ih (fun ln hln => hx ln (List.mem_cons_of_mem x hln))
      · cases hgs : goStartsWith
            (goTrim (x ++ '\n' :: List.intercalate ['\n'] (y :: r))) q with
        | false => rfl
        | true =>
          exfalso
          have hdw : (x ++ '\n' :: List.intercalate ['\n'] (y :: r)).dropWhile goIsSpace =
              x.dropWhile goIsSpace ++ '\n' :: List.intercalate ['\n'] (y :: r) :=
            dropWhile_append_of_ne goIsSpace x _ hxall
          obtain ⟨w2, hw2, hw2s⟩ := trimRight_decomp goIsSpace
            ((x ++ '\n' :: List.intercalate ['\n'] (y :: r)).dropWhile goIsSpace)
          -- q is a prefix of the full drop-while form
          have hp1 : q.isPrefixOf
              ((x ++ '\n' :: List.intercalate ['\n'] (y :: r)).dropWhile goIsSpace) = true := by
            rw [hw2]
            exact isPrefixOf_extend q _ w2 hgs
          rw [hdw] at hp1
          have hp2 : q.isPrefixOf (x.dropWhile goIsSpace) = true :=
            isPrefixOf_before_stop goIsSpace q (x.dropWhile goIsSpace) _ '\n' hp1 qns
              (by decide)
          obtain ⟨w3, hw3, hw3s⟩ := trimRight_decomp goIsSpace (x.dropWhile goIsSpace)
          rw [hw3] at hp2
          have hp3 : q.isPrefixOf (goTrim x) = true :=
            isPrefixOf_drop_suffix goIsSpace q (goTrim x) w3 hp2 qns hw3s
          have := hx x (List.mem_cons_self _ _)
          unfold goStartsWith at this
          rw [hp3] at this
          cases this

/-- C9, counterexample.  The strip loop removes the leading memory-claim
phrase only **once** (`break`), so a doubled marker survives: sanitizing
已记住：已记住：你好 yields a text that still begins with 已记住：,
refuting "never begins with any of the forbidden memory-claim prefixes". -/
theorem C9_repeated_marker_counterexample :
    gs "已记住：" ∈ forbiddenClaimPres ∧
      goStartsWith (sanitizeAssistantText (gs "已记住：已记住：你好"))
        (gs "已记住：") = true := by
  decide

/-- C9 (amended): (a) unconditionally, no line of the sanitized text is
an internal marker line (`[ok]`/`[noop]`/`[conflict]`/`[error]` at the
trimmed start) involving a facts-panel keyword; (b) the output avoids
the forbidden memory-claim prefixes only when, after the single leading
strip and the parenthetical strip, no line of the intermediate text
trim-starts with one — the strip removes at most one leading phrase, so
repeated phrases survive. -/
theorem C9_sanitize_amended (s : GoStr) :
    (∀ ln ∈ splitOnChar '\n' (sanitizeAssistantText s),
        isMarkerKeywordLine (goTrim ln) = false) ∧
      ((∀ ln ∈ splitOnChar '\n' (noisyStripStage (stripLeadClaimMarker s)),
          ∀ q ∈ forbiddenClaimPres, goStartsWith (goTrim ln) q = false) →
        ∀ q ∈ forbiddenClaimPres,
          goStartsWith (sanitizeAssistantText s) q = false) := by
  constructor
  · intro ln hln
    unfold sanitizeAssistantText at hln
    split_ifs at hln with hemp
    · rw [List.isEmpty_iff.mp hemp] at hln
      rw [show splitOnChar '\n' ([] : GoStr) = [[]] from rfl] at hln
      rw [List.mem_singleton.mp hln]
      decide
    · obtain ⟨ln0, hln0m, hln0e⟩ := lines_goTrim _ ln hln
      have hnl : gs "\n" = ['\n'] := by decide
      rw [hln0e]
      cases hk : sanitizeLineFilter (splitOnChar '\n'
          (noisyStripStage (stripLeadClaimMarker s))) with
      | nil =>
        rw [hk] at hln0m
        rw [show goJoin (gs "\n") ([] : List GoStr) = [] from by
          simp [goJoin, List.intercalate, List.intersperse]] at hln0m
        rw [show splitOnChar '\n' ([] : GoStr) = [[]] from rfl] at hln0m
        rw [List.mem_singleton.mp hln0m]
        decide
      | cons k ks =>
        rw [hk] at hln0m
        unfold goJoin at hln0m
        rw [hnl] at hln0m
        have hnomem : ∀ x ∈ (k :: ks), '\n' ∉ x := by
          intro x hxm
          have hxm2 : x ∈ sanitizeLineFilter (splitOnChar '\n'
              (noisyStripStage (stripLeadClaimMarker s))) := by
            rw [hk]; exact hxm
          exact not_mem_of_mem_splitOnChar '\n' _ x (List.mem_filter.mp hxm2).1
        rw [splitOnChar_intercalate '\n' (k :: ks) (by simp) hnomem] at hln0m
        have hfm : ln0 ∈ sanitizeLineFilter (splitOnChar '\n'
            (noisyStripStage (stripLeadClaimMarker s))) := by
          rw [hk]; exact hln0m
        have hpred := (List.mem_filter.mp hfm).2
        simp only [Bool.or_eq_true] at hpred
        rcases hpred with h | h
        · rw [List.isEmpty_iff.mp h]
          decide
        · simpa using h
  · intro hb q hq
    obtain ⟨qne, qns⟩ := markerNoSpace q hq
    unfold sanitizeAssistantText
    split_ifs with hemp
    · rw [List.isEmpty_iff.mp hemp]
      cases q with
      | nil => exact absurd rfl qne
      | cons b q2 => rfl
    · unfold goJoin
      have hnl : gs "\n" = ['\n'] := by decide
      rw [hnl]
      refine no_marker_head_intercalate q qne qns _ ?_
      intro ln hln
      exact hb ln (List.mem_filter.mp hln).1 q hq

/-- Witness for the amended C9: a two-line reply where the internal
`[ok] FACTS …` line is dropped and no forbidden phrase leads. -/
theorem C9_sanitize_amended_witness :
    isMarkerKeywordLine (goTrim (gs "你好")) = false ∧
      goStartsWith (sanitizeAssistantText (gs "你好\n[ok] FACTS 已更新"))
        (gs "已记住：") = false :=
  ⟨(C9_sanitize_amended (gs "你好\n[ok] FACTS 已更新")).1 (gs "你好") (by decide),
   (C9_sanitize_amended (gs "你好\n[ok] FACTS 已更新")).2 (by decide)
     (gs "已记住：") (by decide)⟩

/-! ### C6: ListPendingFactGroups (src/unnamed/part_007)

`emb` abstracts `ensureVec`: the stored-or-freshly-computed embedding of
a pending fact id, `none` when the vector is empty / the embed call
failed (then `len(pv.v) == 0` and the item becomes a singleton and is
skipped as a similarity target).  Go float64 arithmetic is exact
rational arithmetic.  `sort.SliceStable` is `sortByComp`. -/

/-- A `pending_facts` row as the grouping reads it. -/
structure PendingFact where
  id : Nat
  fact : GoStr
  factKey : GoStr
  confidence : ℚ
  createdAt : GoStr
deriving DecidableEq, Repr

/-- The in-progress group record `grp`. -/
structure PendingGrp where
  gid : Nat
  rep : PendingFact
  repV : Option (List ℚ × ℚ)
  items : List PendingFact
deriving DecidableEq, Repr

/-- `PendingFactGroup` (part_007). -/
structure PendingFactGroup where
  groupId : GoStr
  rep : PendingFact
  items : List PendingFact
  size : Nat
deriving DecidableEq, Repr

/-- `pendingClusterThreshold = 0.88`. -/
def pendingClusterThreshold : ℚ := 88 / 100

/-- `cosine` (part_007). -/
def cosineQ (a : List ℚ) (aL2 : ℚ) (b : List ℚ) (bL2 : ℚ) : ℚ :=
  if a.length = 0 ∨ a.length ≠ b.length ∨ aL2 = 0 ∨ bL2 = 0 then 0
  else (((a.zip b).map (fun p => p.1 * p.2)).foldr (· + ·) 0) / (aL2 * bL2)

/-- The item sort: confidence desc, then `created_at` desc. -/
def pendingLess (a b : PendingFact) : Bool :=
  if a.confidence ≠ b.confidence then decide (b.confidence < a.confidence)
  else goLt b.createdAt a.createdAt

/-- The group sort: size desc, then representative confidence desc. -/
def groupLess (a b : PendingGrp) : Bool :=
  if a.items.length ≠ b.items.length then decide (b.items.length < a.items.length)
  else decide (b.rep.confidence < a.rep.confidence)

/-- The per-group item sort: confidence desc, then fact text asc. -/
def itemLess (a b : PendingFact) : Bool :=
  if a.confidence ≠ b.confidence then decide (b.confidence < a.confidence)
  else goLt a.fact b.fact

/-- The fast path: append `it` to the first group whose REPRESENTATIVE
carries the same non-empty `fact_key`; `none` when no such group. -/
def mergeIntoFirstKey (it : PendingFact) : List PendingGrp → Option (List PendingGrp)
  | [] => none
  | g :: gs2 =>
    if (!g.rep.factKey.isEmpty && !it.factKey.isEmpty &&
        (g.rep.factKey == it.factKey)) = true then
      some ({ g with items := g.items ++ [it] } :: gs2)
    else
      match mergeIntoFirstKey it gs2 with
      | some gs3 => some (g :: gs3)
      | none => none

/-- The argmax scan over group representatives: strict improvement on a
best-so-far initialised to `0`, groups without a vector skipped. -/
def bestSimAux (pv : List ℚ × ℚ) : List PendingGrp → Nat → Option Nat × ℚ →
    Option Nat × ℚ
  | [], _, acc => acc
  | g :: gs2, i, acc =>
    match g.repV with
    | none => bestSimAux pv gs2 (i + 1) acc
    | some rv =>
      if acc.2 < cosineQ pv.1 pv.2 rv.1 rv.2 then
        bestSimAux pv gs2 (i + 1) (some i, cosineQ pv.1 pv.2 rv.1 rv.2)
      else bestSimAux pv gs2 (i + 1) acc

/-- `bestIdx` / `bestSim` of the Go loop. -/
def bestSimFold (pv : List ℚ × ℚ) (l : List PendingGrp) : Option Nat × ℚ :=
  bestSimAux pv l 0 (none, 0)

/-- `groups[i].items = append(groups[i].items, it)`. -/
def appendItemAt (it : PendingFact) : Nat → List PendingGrp → List PendingGrp
  | _, [] => []
  | 0, g :: gs2 => { g with items := g.items ++ [it] } :: gs2
  | n + 1, g :: gs2 => g :: appendItemAt it n gs2

/-- One iteration of the grouping loop over `(groups, gid)`. -/
def pendingStep (emb : Nat → Option (List ℚ × ℚ)) (st : List PendingGrp × Nat)
    (it : PendingFact) : List PendingGrp × Nat :=
  match mergeIntoFirstKey it st.1 with
  | some groups2 => (groups2, st.2)
  | none =>
    match emb it.id with
    | none => (st.1 ++ [⟨st.2 + 1, it, none, [it]⟩], st.2 + 1)
    | some pv =>
      match bestSimFold pv st.1 with
      | (some i, sim) =>
        if pendingClusterThreshold ≤ sim then (appendItemAt it i st.1, st.2)
        else (st.1 ++ [⟨st.2 + 1, it, some pv, [it]⟩], st.2 + 1)
      | (none, _) => (st.1 ++ [⟨st.2 + 1, it, some pv, [it]⟩], st.2 + 1)

/-- `ListPendingFactGroups` (part_007), from the loaded rows onward. -/
def ListPendingFactGroups (emb : Nat → Option (List ℚ × ℚ))
    (items : List PendingFact) : List PendingFactGroup :=
  let sorted := sortByComp pendingLess items
  let st := sorted.foldl (pendingStep emb) ([], 0)
  (sortByComp groupLess st.1).map (fun g =>
    ⟨gs "g" ++ Nat.toDigits 10 g.gid, g.rep, sortByComp itemLess g.items,
      g.items.length⟩)

/-- Highest-confidence pending fact, key `k1`, unit vector `e₁`. -/
def pfA : PendingFact := ⟨1, gs "a", gs "k1", 9 / 10, gs "2025-01-03"⟩

/-- Middle pending fact, key `k2`, embedding equal to `pfA`'s. -/
def pfB : PendingFact := ⟨2, gs "b", gs "k2", 8 / 10, gs "2025-01-02"⟩

/-- Lowest-confidence pending fact, key `k2`, orthogonal embedding. -/
def pfC : PendingFact := ⟨3, gs "c", gs "k2", 7 / 10, gs "2025-01-01"⟩

/-- The three rows of the C6 analysis. -/
def itemsC6 : List PendingFact := [pfA, pfB, pfC]

/-- Their embeddings: `pfB` is cosine-identical to `pfA`, `pfC`
orthogonal to both. -/
def embC6 : Nat → Option (List ℚ × ℚ) := fun id =>
  if id = 1 then some ([1, 0], 1)
  else if id = 2 then some ([1, 0], 1)
  else if id = 3 then some ([0, 1], 1)
  else none

/-- C6, counterexample.  `pfB` and `pfC` share the non-empty fact key
`k2`, yet they land in different groups: `pfB` is processed before any
`k2` representative exists and is captured by cosine similarity (`1 ≥
0.88`) into `pfA`'s group (representative key `k1`); `pfC` then starts
its own group, because the fast path compares only against group
*representatives*. -/
theorem C6_same_key_split_counterexample :
    pfB.factKey = pfC.factKey ∧ pfB.factKey ≠ [] ∧
      ∃ g1 ∈ ListPendingFactGroups embC6 itemsC6,
        ∃ g2 ∈ ListPendingFactGroups embC6 itemsC6,
          pfB ∈ g1.items ∧ pfC ∈ g2.items ∧ g1 ≠ g2 := by
  decide

/-- The fast-path miss characterised: no group representative carries
`it`'s (non-empty) fact key. -/
theorem mergeIntoFirstKey_none_iff (it : PendingFact) :
    ∀ l : List PendingGrp, mergeIntoFirstKey it l = none ↔
      ∀ g ∈ l, (!g.rep.factKey.isEmpty && !it.factKey.isEmpty &&
        (g.rep.factKey == it.factKey)) = false := by
  intro l
  induction l with
  | nil => simp [mergeIntoFirstKey]
  | cons g gs2 ih =>
    simp only [mergeIntoFirstKey]
    by_cases hc : (!g.rep.factKey.isEmpty && !it.factKey.isEmpty &&
        (g.rep.factKey == it.factKey)) = true
    · rw [if_pos hc]
      constructor
      · intro h; simp at h
      · intro hall
        exact absurd hc (by rw [hall g (List.mem_cons_self _ _)]; simp)
    · rw [if_neg hc]
      cases hm : mergeIntoFirstKey it gs2 with
      | some l2 =>
        constructor
        · intro h; simp at h
        · intro hall
          have := ih.mpr (fun g2 hg2 => hall g2 (List.mem_cons_of_mem g hg2))
          rw [hm] at this
          simp at this
      | none =>
        constructor
        · intro _ g2 hg2
          rcases List.mem_cons.mp hg2 with hge | h2
          · rw [hge]
            exact Bool.eq_false_iff.mpr hc
          · exact (ih.mp hm) g2 h2
        · intro _; rfl

/-- The `(gid, rep)` projection, the data the key/gid invariant lives on. -/
def grpProj (g : PendingGrp) : Nat × PendingFact := (g.gid, g.rep)

theorem mergeIntoFirstKey_map (it : PendingFact) :
    ∀ l l', mergeIntoFirstKey it l = some l' →
      l'.map grpProj = l.map grpProj := by
  intro l
  induction l with
  | nil => intro l' h; simp [mergeIntoFirstKey] at h
  | cons g gs2 ih =>
    intro l' h
    simp only [mergeIntoFirstKey] at h
    split_ifs at h with hc
    · rw [← Option.some.inj h]
      rfl
    · cases hm : mergeIntoFirstKey it gs2 with
      | some gs3 =>
        rw [hm] at h
        rw [← Option.some.inj h]
        simp only [List.map_cons]
        rw [ih gs3 hm]
      | none =>
        rw [hm] at h
        simp at h

theorem mergeIntoFirstKey_mem (it : PendingFact) :
    ∀ l l', mergeIntoFirstKey it l = some l' →
      (∀ x, (∃ g ∈ l, x ∈ g.items) → ∃ g ∈ l', x ∈ g.items) ∧
        (∃ g ∈ l', it ∈ g.items) := by
  intro l
  induction l with
  | nil => intro l' h; simp [mergeIntoFirstKey] at h
  | cons g gs2 ih =>
    intro l' h
    simp only [mergeIntoFirstKey] at h
    split_ifs at h with hc
    · rw [← Option.some.inj h]
      constructor
      · intro x hx
        obtain ⟨g0, hg0m, hg0x⟩ := hx
        rcases List.mem_cons.mp hg0m with hge | h2
        · exact ⟨{ g with items := g.items ++ [it] }, List.mem_cons_self _ _,
            List.mem_append_left _ (hge ▸ hg0x)⟩
        · exact ⟨g0, List.mem_cons_of_mem _ h2, hg0x⟩
      · exact ⟨{ g with items := g.items ++ [it] }, List.mem_cons_self _ _,
          List.mem_append_right _ (List.mem_singleton_self it)⟩
    · cases hm : mergeIntoFirstKey it gs2 with
      | some gs3 =>
        rw [hm] at h
        rw [← Option.some.inj h]
        obtain ⟨hmono, hself⟩ := ih gs3 hm
        constructor
        · intro x hx
          obtain ⟨g0, hg0m, hg0x⟩ := hx
          rcases List.mem_cons.mp hg0m with hge | h2
          · exact ⟨g, List.mem_cons_self _ _, hge ▸ hg0x⟩
          · obtain ⟨g1, hg1m, hg1x⟩ := hmono x ⟨g0, h2, hg0x⟩
            exact ⟨g1, List.mem_cons_of_mem _ hg1m, hg1x⟩
        · obtain ⟨g1, hg1m, hg1x⟩ := hself
          exact ⟨g1, List.mem_cons_of_mem _ hg1m, hg1x⟩
      | none =>
        rw [hm] at h
        simp at h

theorem appendItemAt_map (it : PendingFact) :
    ∀ (i : Nat) (l : List PendingGrp),
      (appendItemAt it i l).map grpProj = l.map grpProj := by
  intro i
  induction i with
  | zero =>
    intro l
    cases l with
    | nil => rfl
    | cons g gs2 => rfl
  | succ n ih =>
    intro l
    cases l with
    | nil => rfl
    | cons g gs2 =>
      simp only [appendItemAt, List.map_cons]
      rw [ih gs2]

theorem appendItemAt_mem_mono (it : PendingFact) :
    ∀ (i : Nat) (l : List PendingGrp) (x : PendingFact),
      (∃ g ∈ l, x ∈ g.items) → ∃ g ∈ appendItemAt it i l, x ∈ g.items := by
  intro i
  induction i with
  | zero =>
    intro l x hx
    cases l with
    | nil => simpa using hx
    | cons g gs2 =>
      obtain ⟨g0, hg0m, hg0x⟩ := hx
      rcases List.mem_cons.mp hg0m with hge | h2
      · exact ⟨{ g with items := g.items ++ [it] }, List.mem_cons_self _ _,
          List.mem_append_left _ (hge ▸ hg0x)⟩
      · exact ⟨g0, List.mem_cons_of_mem _ h2, hg0x⟩
  | succ n ih =>
    intro l x hx
    cases l with
    | nil => simpa using hx
    | cons g gs2 =>
      obtain ⟨g0, hg0m, hg0x⟩ := hx
      rcases List.mem_cons.mp hg0m with hge | h2
      · exact ⟨g, List.mem_cons_self _ _, hge ▸ hg0x⟩
      · obtain ⟨g1, hg1m, hg1x⟩ := ih gs2 x ⟨g0, h2, hg0x⟩
        exact ⟨g1, List.mem_cons_of_mem _ hg1m, hg1x⟩

theorem appendItemAt_mem_self (it : PendingFact) :
    ∀ (i : Nat) (l : List PendingGrp), i < l.length →
      ∃ g ∈ appendItemAt it i l, it ∈ g.items := by
  intro i
  induction i with
  | zero =>
    intro l hi
    cases l with
    | nil => simp at hi
    | cons g gs2 =>
      exact ⟨{ g with items := g.items ++ [it] }, List.mem_cons_self _ _,
        List.mem_append_right _ (List.mem_singleton_self it)⟩
  | succ n ih =>
    intro l hi
    cases l with
    | nil => simp at hi
    | cons g gs2 =>
      obtain ⟨g1, hg1m, hg1x⟩ := ih gs2 (by simpa using hi)
      exact ⟨g1, List.mem_cons_of_mem _ hg1m, hg1x⟩

theorem bestSimAux_bound (pv : List ℚ × ℚ) :
    ∀ (l : List PendingGrp) (i0 : Nat) (acc : Option Nat × ℚ),
      (∀ j, acc.1 = some j → j < i0) →
      ∀ i sim, bestSimAux pv l i0 acc = (some i, sim) → i < i0 + l.length := by
  intro l
  induction l with
  | nil =>
    intro i0 acc hacc i sim h
    have h2 : acc = (some i, sim) := h
    have := hacc i (by rw [h2])
    simpa using this
  | cons g gs2 ih =>
    intro i0 acc hacc i sim h
    simp only [bestSimAux] at h
    have hlen : i0 + (g :: gs2).length = (i0 + 1) + gs2.length := by
      simp only [List.length_cons]
      omega
    rw [hlen]
    split at h
    · exact ih (i0 + 1) acc (fun j hj => Nat.lt_succ_of_lt (hacc j hj)) i sim h
    · split_ifs at h with hlt
      · exact ih (i0 + 1) (some _, cosineQ pv.1 pv.2 _ _)
          (by intro j hj; simp at hj; omega) i sim h
      · exact ih (i0 + 1) acc (fun j hj => Nat.lt_succ_of_lt (hacc j hj)) i sim h

/-- The invariant relation between two groups: distinct gids, and the
earlier one's non-empty representative key is not repeated. -/
def grpRel (ga gb : PendingGrp) : Prop :=
  ga.gid ≠ gb.gid ∧ (ga.rep.factKey ≠ [] → ga.rep.factKey ≠ gb.rep.factKey)

theorem grpRel_of_proj_eq (ga gb ga2 gb2 : PendingGrp)
    (ha : grpProj ga = grpProj ga2) (hb : grpProj gb = grpProj gb2)
    (h : grpRel ga2 gb2) : grpRel ga gb := by
  obtain ⟨h1, h2⟩ := Prod.mk.injEq _ _ _ _ ▸ ha
  obtain ⟨h3, h4⟩ := Prod.mk.injEq _ _ _ _ ▸ hb
  unfold grpRel
  rw [show ga.gid = ga2.gid from h1, show ga.rep = ga2.rep from h2,
    show gb.gid = gb2.gid from h3, show gb.rep = gb2.rep from h4]
  exact h

/-- Pairwise invariance transports along equal `(gid, rep)` projections. -/
theorem pairwise_grpRel_of_map_eq (l l' : List PendingGrp)
    (hmap : l'.map grpProj = l.map grpProj) (hp : l.Pairwise grpRel) :
    l'.Pairwise grpRel := by
  have h1 : (l.map grpProj).Pairwise
      (fun a b => a.1 ≠ b.1 ∧ (a.2.factKey ≠ [] → a.2.factKey ≠ b.2.factKey)) := by
    rw [List.pairwise_map]
    exact hp
  rw [← hmap, List.pairwise_map] at h1
  exact h1

theorem bound_of_map_eq (l l' : List PendingGrp) (n : Nat)
    (hmap : l'.map grpProj = l.map grpProj) (hb : ∀ g ∈ l, g.gid ≤ n) :
    ∀ g ∈ l', g.gid ≤ n := by
  intro g hg
  have : grpProj g ∈ l.map grpProj := by
    rw [← hmap]
    exact List.mem_map_of_mem grpProj hg
  obtain ⟨g0, hg0, hge⟩ := List.mem_map.mp this
  have : g0.gid = g.gid := congrArg Prod.fst hge
  rw [← this]
  exact hb g0 hg0

theorem pairwise_mem_eq {α : Type} (R : α → α → Prop) (l : List α)
    (hp : l.Pairwise R) (a b : α) (ha : a ∈ l) (hb : b ∈ l)
    (hnab : ¬ R a b) (hnba : ¬ R b a) : a = b := by
  induction l with
  | nil => cases ha
  | cons x t ih =>
    obtain ⟨hx, hp2⟩ := List.pairwise_cons.mp hp
    rcases List.mem_cons.mp ha with rfl | ha2
    · rcases List.mem_cons.mp hb with rfl | hb2
      · rfl
      · exact absurd (hx b hb2) hnab
    · rcases List.mem_cons.mp hb with rfl | hb2
      · exact absurd (hx a ha2) hnba
      · exact ih hp2 ha2 hb2

theorem append_new_mem (st1 : List PendingGrp) (g0 : PendingGrp) :
    (∀ x, (∃ g ∈ st1, x ∈ g.items) → ∃ g ∈ st1 ++ [g0], x ∈ g.items) ∧
      ∀ y ∈ g0.items, ∃ g ∈ st1 ++ [g0], y ∈ g.items := by
  constructor
  · intro x hx
    obtain ⟨g, hgm, hgx⟩ := hx
    exact ⟨g, List.mem_append_left _ hgm, hgx⟩
  · intro y hy
    exact ⟨g0, List.mem_append_right _ (List.mem_singleton_self _), hy⟩

theorem pendingStep_mem (emb : Nat → Option (List ℚ × ℚ))
    (st : List PendingGrp × Nat) (it : PendingFact) :
    (∀ x, (∃ g ∈ st.1, x ∈ g.items) →
        ∃ g ∈ (pendingStep emb st it).1, x ∈ g.items) ∧
      ∃ g ∈ (pendingStep emb st it).1, it ∈ g.items := by
  unfold pendingStep
  cases hm : mergeIntoFirstKey it st.1 with
  | some l' =>
    simp only [hm]
    exact mergeIntoFirstKey_mem it st.1 l' hm
  | none =>
    simp only [hm]
    cases he : emb it.id with
    | none =>
      simp only [he]
      exact ⟨(append_new_mem st.1 _).1,
        (append_new_mem st.1 _).2 it (List.mem_singleton_self it)⟩
    | some pv =>
      simp only [he]
      cases hbs : bestSimFold pv st.1 with
      | mk oi sim =>
        cases oi with
        | some i =>
          by_cases hth : pendingClusterThreshold ≤ sim
          · simp only [if_pos hth]
            refine ⟨fun x hx => appendItemAt_mem_mono it i st.1 x hx, ?_⟩
            refine appendItemAt_mem_self it i st.1 ?_
            have hbd := bestSimAux_bound pv st.1 0 (none, 0)
              (by intro j hj; simp at hj) i sim hbs
            simpa using hbd
          · simp only [if_neg hth]
            exact ⟨(append_new_mem st.1 _).1,
              (append_new_mem st.1 _).2 it (List.mem_singleton_self it)⟩
        | none =>
          exact ⟨(append_new_mem st.1 _).1,
            (append_new_mem st.1 _).2 it (List.mem_singleton_self it)⟩

theorem pendingStep_inv (emb : Nat → Option (List ℚ × ℚ))
    (st : List PendingGrp × Nat) (it : PendingFact)
    (hp : st.1.Pairwise grpRel) (hb : ∀ g ∈ st.1, g.gid ≤ st.2) :
    (pendingStep emb st it).1.Pairwise grpRel ∧
      ∀ g ∈ (pendingStep emb st it).1, g.gid ≤ (pendingStep emb st it).2 := by
  unfold pendingStep
  cases hm : mergeIntoFirstKey it st.1 with
  | some l' =>
    simp only [hm]
    have hmap := mergeIntoFirstKey_map it st.1 l' hm
    exact ⟨pairwise_grpRel_of_map_eq st.1 l' hmap hp,
      bound_of_map_eq st.1 l' st.2 hmap hb⟩
  | none =>
    have hchar := (mergeIntoFirstKey_none_iff it st.1).mp hm
    have hnew : ∀ rv : Option (List ℚ × ℚ),
        (st.1 ++ [(⟨st.2 + 1, it, rv, [it]⟩ : PendingGrp)]).Pairwise grpRel ∧
          ∀ g ∈ st.1 ++ [(⟨st.2 + 1, it, rv, [it]⟩ : PendingGrp)], g.gid ≤ st.2 + 1 := by
      intro rv
      constructor
      · rw [List.pairwise_append]
        refine ⟨hp, List.pairwise_singleton _ _, ?_⟩
        intro ga hga gb hgb
        rw [List.mem_singleton.mp hgb]
        constructor
        · have := hb ga hga
          show ga.gid ≠ st.2 + 1
          omega
        · intro hk
          show ga.rep.factKey ≠ it.factKey
          intro hkeq
          have hfalse := hchar ga hga
          have h1 : (!ga.rep.factKey.isEmpty) = true := by
            cases hki : ga.rep.factKey.isEmpty
            · rfl
            · exact absurd (List.isEmpty_iff.mp hki) hk
          have h2 : (!it.factKey.isEmpty) = true := by
            cases hki : it.factKey.isEmpty
            · rfl
            · exact absurd (List.isEmpty_iff.mp hki) (by rw [← hkeq]; exact hk)
          have h3 : (ga.rep.factKey == it.factKey) = true := beq_iff_eq.mpr hkeq
          rw [h1, h2, h3] at hfalse
          simp at hfalse
      · intro g hg
        rcases List.mem_append.mp hg with h | h
        · exact Nat.le_succ_of_le (hb g h)
        · rw [List.mem_singleton.mp h]
    simp only [hm]
    cases he : emb it.id with
    | none =>
      simp only [he]
      exact hnew none
    | some pv =>
      simp only [he]
      cases hbs : bestSimFold pv st.1 with
      | mk oi sim =>
        cases oi with
        | some i =>
          by_cases hth : pendingClusterThreshold ≤ sim
          · simp only [if_pos hth]
            have hmap := appendItemAt_map it i st.1
            exact ⟨pairwise_grpRel_of_map_eq st.1 _ hmap hp,
              bound_of_map_eq st.1 _ st.2 hmap hb⟩
          · simp only [if_neg hth]
            exact hnew (some pv)
        | none =>
          exact hnew (some pv)

theorem pendingFold_mem (emb : Nat → Option (List ℚ × ℚ)) (l : List PendingFact) :
    ∀ st : List PendingGrp × Nat,
      (∀ x ∈ l, ∃ g ∈ (l.foldl (pendingStep emb) st).1, x ∈ g.items) ∧
        ∀ x, (∃ g ∈ st.1, x ∈ g.items) →
          ∃ g ∈ (l.foldl (pendingStep emb) st).1, x ∈ g.items := by
  induction l with
  | nil =>
    intro st
    exact ⟨by simp, fun x h => h⟩
  | cons it ts ih =>
    intro st
    simp only [List.foldl_cons]
    constructor
    · intro x hx
      rcases List.mem_cons.mp hx with hxe | h2
      · rw [hxe]
        exact (ih (pendingStep emb st it)).2 it (pendingStep_mem emb st it).2
      · exact (ih (pendingStep emb st it)).1 x h2
    · intro x h
      exact (ih (pendingStep emb st it)).2 x ((pendingStep_mem emb st it).1 x h)

theorem pendingFold_inv (emb : Nat → Option (List ℚ × ℚ)) (l : List PendingFact) :
    ∀ st : List PendingGrp × Nat,
      st.1.Pairwise grpRel → (∀ g ∈ st.1, g.gid ≤ st.2) →
      (l.foldl (pendingStep emb) st).1.Pairwise grpRel := by
  induction l with
  | nil => intro st hp _; exact hp
  | cons it ts ih =>
    intro st hp hb
    simp only [List.foldl_cons]
    obtain ⟨hp2, hb2⟩ := pendingStep_inv emb st it hp hb
    exact ih (pendingStep emb st it) hp2 hb2

/-- C6 (amended): same-`fact_key` merging happens only against group
*representatives*, so it is **not** the case that two pending facts with
the same non-empty key always share a group — an earlier item can be
captured by cosine similarity into a group repped by a different key
(the counterexample).  What does hold: every pending fact appears in
some returned group, and two returned groups whose representatives
share a non-empty fact key are the same group (an item whose key
matches an existing representative always fast-path merges, so
representative keys never repeat). -/
theorem C6_pending_groups_amended (emb : Nat → Option (List ℚ × ℚ))
    (items : List PendingFact) :
    (∀ it ∈ items, ∃ g ∈ ListPendingFactGroups emb items, it ∈ g.items) ∧
      ∀ g1 ∈ ListPendingFactGroups emb items,
        ∀ g2 ∈ ListPendingFactGroups emb items,
          g1.rep.factKey ≠ [] → g1.rep.factKey = g2.rep.factKey → g1 = g2 := by
  constructor
  · intro it hit
    have hit2 : it ∈ sortByComp pendingLess items := (mem_sortByComp _ _ _).mpr hit
    obtain ⟨g, hgm, hgx⟩ :=
      (pendingFold_mem emb (sortByComp pendingLess items) ([], 0)).1 it hit2
    refine ⟨⟨gs "g" ++ Nat.toDigits 10 g.gid, g.rep, sortByComp itemLess g.items,
      g.items.length⟩, ?_, ?_⟩
    · unfold ListPendingFactGroups
      exact List.mem_map_of_mem _ ((mem_sortByComp _ _ _).mpr hgm)
    · exact (mem_sortByComp _ _ _).mpr hgx
  · intro g1 hg1 g2 hg2 hk hkeq
    unfold ListPendingFactGroups at hg1 hg2
    obtain ⟨a, ham, hae⟩ := List.mem_map.mp hg1
    obtain ⟨b, hbm, hbe⟩ := List.mem_map.mp hg2
    have ham2 := (mem_sortByComp _ _ _).mp ham
    have hbm2 := (mem_sortByComp _ _ _).mp hbm
    have hpair := pendingFold_inv emb (sortByComp pendingLess items) ([], 0)
      List.Pairwise.nil (by intro g hg; cases hg)
    have hka : a.rep.factKey = g1.rep.factKey := by rw [← hae]
    have hkb : b.rep.factKey = g2.rep.factKey := by rw [← hbe]
    have hab : a = b := by
      refine pairwise_mem_eq grpRel _ hpair a b ham2 hbm2 ?_ ?_
      · intro hrel
        exact (hrel.2 (by rw [hka]; exact hk)) (by rw [hka, hkb]; exact hkeq)
      · intro hrel
        exact (hrel.2 (by rw [hkb, ← hkeq]; exact hk))
          (by rw [hka, hkb]; exact hkeq.symm)
    rw [← hae, ← hbe, hab]

/-- Witness for the amended C6: `pfB` — captured by similarity into
`pfA`'s group — still appears in some returned group. -/
theorem C6_pending_groups_amended_witness :
    ∃ g ∈ ListPendingFactGroups embC6 itemsC6, pfB ∈ g.items :=
  (C6_pending_groups_amended embC6 itemsC6).1 pfB (by decide)

end TimeLayer
